import Mathlib

/-!
Shallow embedding of the CALF learning engine (crates/calf/src/calf.rs) and the
regex oracle front end (crates/oracles/src/regex_oracle.rs).

The engine manipulates categorical objects (named collections of string-labelled
elements, each with an identity), morphisms (explicit element-to-element
mappings) and a store of both.  The category-theory machinery itself
(hom-set lookup, epic/monic factorization, commutation checks, products,
inclusion functors) lives in a crate that is not part of the sources; those
operations are modelled here from the contracts in the specification and are
marked `Modelled from the spec:` in their doc comments.  Everything else is a
direct translation of the Rust engine code.

Conventions of the embedding:
* an element of an object is represented by its string label (the Rust code
  keys mappings by identity morphisms of elements; an identity morphism is in
  one-to-one correspondence with its element, so mappings here are association
  lists of labels);
* the `async` store operations are pure state-passing on a `Core` record;
* fallible Rust code (`Result`) becomes `Except CalfError`;
* Rust `HashMap` iteration is modelled by association lists in insertion
  order (the Rust order is unspecified; theorems that depend on a choice of
  witness only claim that some suitable witness is produced);
* membership queries issued to the oracle are recorded as an explicit event
  trace, as are entries into the two predicate checks.
-/

namespace CalfModel

/-- Rust `bool::to_string`: the strings used to build observation-row labels. -/
def boolStr : Bool → String
  | true => "true"
  | false => "false"

/-- Identity of a categorical object.  Objects created by the engine receive a
fresh `base` identity from a counter; the hypothesis object produced by the
canonical factorization of a morphism has a deterministic identity derived
from that morphism (the spec: `morphism_factors` is deterministic for a given
morphism's mapping). -/
inductive OId where
  | base (n : Nat)
  | himage (s t : OId) (m : List (String × String))
deriving DecidableEq

/-- A categorical object: an identity plus the labels of its elements. -/
structure Obj where
  oid : OId
  elems : List String
deriving DecidableEq

/-- A morphism: source and target objects plus an explicit element-to-element
mapping (association list over element labels, standing for the Rust
`arrow_mappings` from identity morphisms to identity morphisms). -/
structure Mor where
  src : Obj
  tgt : Obj
  map : List (String × String)
deriving DecidableEq

/-- First-match lookup in an association list (Rust `HashMap::get`). -/
def alookup : List (String × String) → String → Option String
  | [], _ => none
  | (k, v) :: rest, x => if k = x then some v else alookup rest x

/-- Events observable during a run: oracle membership queries, oracle
equivalence queries, and entries into the two predicate checks. -/
inductive Event where
  | memQuery (w : String)
  | eqQuery
  | checkClosed
  | checkConsistent
deriving DecidableEq

/-- The error enum of crates/calf/src/calf_errors.rs.  (`errorAddingPowersetMorphism`
is referenced by calf.rs even though the enum in calf_errors.rs does not list
it; it is included so the reference can be modelled.) -/
inductive CalfError where
  | unknownError
  | multipleMorphismsFromFSToPowerSet
  | multipleMorphismsFromFHtoPowerset
  | multipleMorphismsFromFStoFH
  | multipleMorphismsFromSuffixToPowerSet
  | membershipQueryObjectNotFound
  | multipleMorphismsFromFSToH
  | noMorphismFromFStoFH
  | invalidMappingFromFStoFH
  | invalidMappingFromFHtoPowerset
  | invalidMappingFromHtoPowerset
  | multipleMorphismsFromFStoH
  | multipleMorphismsFromFHtoH
  | errorAddingPowersetMorphism
deriving DecidableEq

/-- The engine state: the fields of the Rust `CALF` struct (`category` split
into its morphism store and object registry) together with a fresh-identity
counter.  Field correspondence: `sObj` is the prefix object S, `fsObj` the
product object S×A (`prefix_alphabet`), `fhObj` the hypothesis-extension
object FH (`hypothesis_prefix_alphabet`), `suffixObj` the suffix object E,
`powObj` the power-set object 2^E (`suffix_power_set`). -/
structure Core where
  store : List Mor
  objects : List Obj
  sObj : Obj
  fsObj : Obj
  fhObj : Obj
  suffixObj : Obj
  alphabets : Obj
  powObj : Obj
  freshId : Nat
deriving DecidableEq

/-- Modelled from the spec: `get_hom_set(source, target)` returns every
morphism currently registered between the two exact objects. -/
def homSet (store : List Mor) (a b : Obj) : List Mor :=
  store.filter (fun m => decide (m.src = a ∧ m.tgt = b))

/-- The hypothesis object of the canonical factorization of `m`: its elements
are the distinct observed rows (the image of `m`), its identity is derived
deterministically from `m`. -/
def hObj (m : Mor) : Obj :=
  ⟨.himage m.src.oid m.tgt.oid m.map, (m.map.map Prod.snd).dedup⟩

/-- Modelled from the spec: the epic half of the canonical image factorization
of `m` — surjective onto the image object, same mapping as `m`. -/
def epicOf (m : Mor) : Mor := ⟨m.src, hObj m, m.map⟩

/-- Modelled from the spec: the monic half of the canonical image factorization
of `m` — the injective embedding of the image object into the target; each
distinct row is mapped to itself. -/
def monicOf (m : Mor) : Mor :=
  ⟨hObj m, m.tgt, (hObj m).elems.map (fun r => (r, r))⟩

/-- Modelled from the spec: `morphism_factors` returns the canonical
epic/monic image factorization, deterministic for a given morphism's
mapping. -/
def morphismFactors (m : Mor) : Mor × Mor := (epicOf m, monicOf m)

/-- Composition of two element mappings: an element is mapped by the first
mapping and the result by the second; elements whose intermediate image is
outside the second mapping's domain drop out of the composite. -/
def composeMaps (m1 m2 : List (String × String)) : List (String × String) :=
  m1.filterMap (fun p => (alookup m2 p.2).map (fun w => (p.1, w)))

/-- The composite mapping of a chain of morphisms, first morphism applied
first. -/
def chainMap : List Mor → List (String × String)
  | [] => []
  | m :: ms => ms.foldl (fun acc m2 => composeMaps acc m2.map) m.map

/-- Result of a commutation check. -/
inductive CommRes where
  | commutative
  | nonCommutative (ws : List String)
deriving DecidableEq

/-- The elements on which both composite mappings are defined but disagree. -/
def commuteWitnesses (c1 c2 : List (String × String)) : List String :=
  c1.filterMap (fun p =>
    match alookup c2 p.1 with
    | some v => if v = p.2 then none else some p.1
    | none => none)

/-- Modelled from the spec: `morphism_commute(pathA, pathB)` compares the
composite mappings of the two morphism chains element by element — on every
element where both composites are defined — and returns the disagreeing
elements as witnesses. -/
def morphismCommute (pA pB : List Mor) : CommRes :=
  let ws := commuteWitnesses (chainMap pA) (chainMap pB)
  if ws = [] then .commutative else .nonCommutative ws

/-- The observation-row label of `x`: the concatenated boolean answers of the
oracle for `x ++ e` over the suffixes `e` in order (the loop body of
`add_power_set_morphism`). -/
def rowLabel (mem : String → Bool) (suffixes : List String) (x : String) : String :=
  suffixes.foldl (fun acc e => acc ++ boolStr (mem (x ++ e))) ""

/-- The membership queries issued while building the row of `x`. -/
def rowQueries (suffixes : List String) (x : String) : List Event :=
  suffixes.map (fun e => .memQuery (x ++ e))

/-- The element-by-element part of `add_power_set_morphism`: build the mapping
from each element to the power-set element carrying its row label, failing
when a computed row label has no element in the power-set object (the Rust
`get_object` error, converted to `UnknownError` by the `From<Errors>` impl). -/
def powerMapAux (mem : String → Bool) (suffixes powElems : List String) :
    List String → Except CalfError (List (String × String))
  | [] => .ok []
  | x :: rest =>
    let r := rowLabel mem suffixes x
    if r ∈ powElems then
      (powerMapAux mem suffixes powElems rest).map (fun t => (x, r) :: t)
    else .error .unknownError

/-- `add_power_set_morphism`: materialize the row morphism `object → 2^E` by
issuing one membership query per (element, suffix) pair, then register it.
The returned events are the queries issued (queries made on the failing path
are not tracked; failure aborts the run). -/
def addPowerSetMorphism (mem : String → Bool) (c : Core) (obj : Obj) :
    Except CalfError (Core × List Event) :=
  match powerMapAux mem c.suffixObj.elems c.powObj.elems obj.elems with
  | .ok mp =>
    .ok ({ c with store := c.store ++ [⟨obj, c.powObj, mp⟩] },
         obj.elems.flatMap (rowQueries c.suffixObj.elems))
  | .error e => .error e

/-- `get_or_create_prefix_to_powerset_morphism`: at most one morphism S → 2^E
may exist; create it through membership queries when absent. -/
def getOrCreateSToPow (mem : String → Bool) (c : Core) :
    Except CalfError (Mor × Core × List Event) :=
  let hs := homSet c.store c.sObj c.powObj
  if hs.length > 1 then .error .multipleMorphismsFromSuffixToPowerSet
  else
    match hs.getLast? with
    | some m => .ok (m, c, [])
    | none =>
      match addPowerSetMorphism mem c c.sObj with
      | .error e => .error e
      | .ok (c2, ev) =>
        let hs2 := homSet c2.store c2.sObj c2.powObj
        if hs2.length > 1 then .error .multipleMorphismsFromSuffixToPowerSet
        else
          match hs2.getLast? with
          | some m => .ok (m, c2, ev)
          | none => .error .errorAddingPowersetMorphism

/-- `get_or_create_prefix_alphabet_to_powerset_morphism`: as above for
FS → 2^E. -/
def getOrCreateFsToPow (mem : String → Bool) (c : Core) :
    Except CalfError (Mor × Core × List Event) :=
  let hs := homSet c.store c.fsObj c.powObj
  if hs.length > 1 then .error .multipleMorphismsFromFSToPowerSet
  else
    match hs.getLast? with
    | some m => .ok (m, c, [])
    | none =>
      match addPowerSetMorphism mem c c.fsObj with
      | .error e => .error e
      | .ok (c2, ev) =>
        let hs2 := homSet c2.store c2.fsObj c2.powObj
        if hs2.length > 1 then .error .multipleMorphismsFromFSToPowerSet
        else
          match hs2.getLast? with
          | some m => .ok (m, c2, ev)
          | none => .error .errorAddingPowersetMorphism

/-- Result of the closedness check. -/
inductive ClosedRes where
  | closed
  | notClosed (ws : List String)
deriving DecidableEq

/-- Result of the consistency check. -/
inductive ConsRes where
  | consistent
  | notConsistent (ws : List String)
deriving DecidableEq

/-- The construction loop of `is_closed`: map each element of FS to the element
of H whose image under the monic map equals the element's row; the first
element whose row has no match makes the wrapper not closed, with that element
as the (single) witness. -/
def buildFsToH (monicRev : List (String × String)) :
    List (String × String) → Except (List String) (List (String × String))
  | [] => .ok []
  | (x, r) :: rest =>
    match alookup monicRev r with
    | some h => (buildFsToH monicRev rest).map (fun t => (x, h) :: t)
    | none => .error [x]

/-- `is_closed` (calf.rs lines 166-256), translated clause by clause. -/
def isClosed (mem : String → Bool) (c0 : Core) :
    Except CalfError (ClosedRes × Core × List Event) := do
  let (s2p, c1, ev1) ← getOrCreateSToPow mem c0
  let (fs2p, c2, ev2) ← getOrCreateFsToPow mem c1
  let epicM := (morphismFactors s2p).1
  let monicM := (morphismFactors s2p).2
  let hs := homSet c2.store c2.fsObj epicM.tgt
  if hs.length > 1 then .error .multipleMorphismsFromFSToH
  else
    match hs.getLast? with
    | none =>
      let monicRev := monicM.map.map (fun p => (p.2, p.1))
      match buildFsToH monicRev fs2p.map with
      | .error ws => .ok (.notClosed ws, c2, .checkClosed :: (ev1 ++ ev2))
      | .ok mp =>
        let fsToH : Mor := ⟨c2.fsObj, epicM.tgt, mp⟩
        let c3 := { c2 with store := c2.store ++ [fsToH] }
        match morphismCommute [fsToH, s2p] [epicM, monicM] with
        | .commutative => .ok (.closed, c3, .checkClosed :: (ev1 ++ ev2))
        | .nonCommutative ws => .ok (.notClosed ws, c3, .checkClosed :: (ev1 ++ ev2))
    | some fsToH =>
      match morphismCommute [fsToH, s2p] [epicM, monicM] with
      | .commutative => .ok (.closed, c2, .checkClosed :: (ev1 ++ ev2))
      | .nonCommutative ws => .ok (.notClosed ws, c2, .checkClosed :: (ev1 ++ ev2))

/-- Outcome of the mapping-construction loop of `is_consistent`. -/
inductive BuildFh where
  | built (mp : List (String × String))
  | conflict (ws : List String)
  | invalid
deriving DecidableEq

/-- The construction loop of `is_consistent`: push FS → 2^E forward along
FS → FH; a source element whose FH image is already mapped to a different
row is a consistency conflict (single witness); a source element missing from
FS → FH is a fatal mapping error. -/
def buildFhToPow (fsToFh : List (String × String)) :
    List (String × String) → List (String × String) → BuildFh
  | [], acc => .built acc
  | (x, r) :: rest, acc =>
    match alookup fsToFh x with
    | none => .invalid
    | some fh =>
      match alookup acc fh with
      | some r2 => if r2 = r then buildFhToPow fsToFh rest acc else .conflict [x]
      | none => buildFhToPow fsToFh rest (acc ++ [(fh, r)])

/-- `is_consistent` (calf.rs lines 258-364), translated clause by clause.  The
final commutation verification is computed and discarded, exactly as in the
source (the `match` on it is commented out there), after which the function
reports consistent unconditionally. -/
def isConsistent (mem : String → Bool) (c0 : Core) :
    Except CalfError (ConsRes × Core × List Event) := do
  let (_s2p, c1, ev1) ← getOrCreateSToPow mem c0
  let (fs2p, c2, ev2) ← getOrCreateFsToPow mem c1
  let fsfhHs := homSet c2.store c2.fsObj c2.fhObj
  if fsfhHs.length > 1 then .error .multipleMorphismsFromFStoFH
  else
    match fsfhHs.getLast? with
    | none => .error .noMorphismFromFStoFH
    | some fsfh =>
      let fhHs := homSet c2.store c2.fhObj c2.powObj
      if fhHs.length > 1 then .error .multipleMorphismsFromFHtoPowerset
      else
        match fhHs.getLast? with
        | none =>
          match buildFhToPow fsfh.map fs2p.map [] with
          | .invalid => .error .invalidMappingFromFStoFH
          | .conflict ws => .ok (.notConsistent ws, c2, .checkConsistent :: (ev1 ++ ev2))
          | .built mp =>
            let fhToPow : Mor := ⟨c2.fhObj, c2.powObj, mp⟩
            let c3 := { c2 with store := c2.store ++ [fhToPow] }
            let _discarded := morphismCommute [fsfh, fhToPow] [fs2p]
            .ok (.consistent, c3, .checkConsistent :: (ev1 ++ ev2))
        | some fhToPow =>
          let _discarded := morphismCommute [fsfh, fhToPow] [fs2p]
          .ok (.consistent, c2, .checkConsistent :: (ev1 ++ ev2))

/-- The row label of power-set element number `i` when there are `n` suffixes:
bit `j` of `i` decides position `j` (the loop body of
`create_suffix_power_set`). -/
def psLabel (n i : Nat) : String :=
  (List.range n).foldl (fun acc j => acc ++ boolStr (i.testBit j)) ""

/-- `create_suffix_power_set`: build a brand-new power-set object with one
element per boolean vector of length |E| (2^|E| elements), register it and
install it as the current 2^E. -/
def createSuffixPowerSet (c : Core) : Core :=
  let n := c.suffixObj.elems.length
  let ps : Obj := ⟨.base c.freshId, (List.range (2 ^ n)).map (psLabel n)⟩
  { c with objects := c.objects ++ [ps], powObj := ps, freshId := c.freshId + 1 }

/-- Element labels of a product object: one element per pair, labelled by
concatenation (the engine queries the oracle with these labels directly, so
the label of (x, a) is the one-symbol extension x·a). -/
def productElems (l r : Obj) : List String :=
  l.elems.flatMap (fun x => r.elems.map (fun a => x ++ a))

/-- The product of a morphism with the alphabet object: (x, a) is mapped to
(m(x), a). -/
def productMor (pObj : Obj) (m : Mor) (right : Obj) (tid : Nat) : Mor :=
  ⟨pObj, ⟨.base tid, productElems m.tgt right⟩,
   m.map.flatMap (fun p => right.elems.map (fun a => (p.1 ++ a, p.2 ++ a)))⟩

/-- Modelled from the spec: `apply_product(store, left, right)` builds the
cartesian object and records, for the input morphisms out of `left`
(including the epic halves of their factorizations, used to derive FH), the
corresponding morphisms into the product; the new objects and morphisms are
registered in the store. -/
def applyProduct (c : Core) (left right : Obj) : Obj × List (Mor × Mor) × Core :=
  let pObj : Obj := ⟨.base c.freshId, productElems left right⟩
  let srcMors := c.store.filter (fun m => decide (m.src = left))
  let keys := srcMors ++ srcMors.map epicOf
  let pairs := keys.enum.map (fun q => (q.2, productMor pObj q.2 right (c.freshId + 1 + q.1)))
  let c2 := { c with
    objects := (c.objects ++ [pObj]) ++ pairs.map (fun q => q.2.tgt),
    store := c.store ++ pairs.map (fun q => q.2),
    freshId := c.freshId + 1 + keys.length }
  (pObj, pairs, c2)

/-- Key-based lookup of the product morphism recorded for a given input
morphism. -/
def findPair : List (Mor × Mor) → Mor → Option Mor
  | [], _ => none
  | (k, v) :: rest, m => if k = m then some v else findPair rest m

/-- `create_prefix_alphabet`: ensure S → 2^E exists, factor it, rebuild the
product S×A, and derive the hypothesis-extension object FH as the target of
the product morphism recorded for the epic half. -/
def createFsObjects (mem : String → Bool) (c0 : Core) :
    Except CalfError (Core × List Event) := do
  let (s2p, c1, ev1) ← getOrCreateSToPow mem c0
  let epicM := (morphismFactors s2p).1
  let (pObj, pairs, c2) := applyProduct c1 c1.sObj c1.alphabets
  let c3 := { c2 with fsObj := pObj }
  match findPair pairs epicM with
  | some pm => .ok ({ c3 with fhObj := pm.tgt }, ev1)
  | none => .error .unknownError

/-- `update_table`: union the witness elements into the target object,
producing a freshly identified superset, and register the inclusion morphism
from the old object into the new one.  Modelled from the spec:
`inclusion_functor` grows the target by unioning in the source elements of
the witnessing morphisms. -/
def updateTable (c : Core) (target : Obj) (ws : List String) : Obj × Core :=
  let newElems := target.elems ++ (ws.dedup.filter (fun w => decide (w ∉ target.elems)))
  let newObj : Obj := ⟨.base c.freshId, newElems⟩
  let incl : Mor := ⟨target, newObj, target.elems.map (fun x => (x, x))⟩
  (newObj,
   { c with objects := c.objects ++ [newObj],
            store := c.store ++ [incl],
            freshId := c.freshId + 1 })

/-- One step of the refinement loop. -/
inductive Step where
  | halt (c : Core)
  | again (c : Core)
deriving DecidableEq

/-- One iteration of the loop body of `run` (calf.rs lines 117-153), with the
same control flow: a failed closedness check grows S, rebuilds S×A and
restarts (skipping consistency); otherwise consistency decides between
halting and growing E (rebuilding 2^E); the trailing `Consistent` arm
re-checks closedness before halting. -/
def runIter (mem : String → Bool) (c0 : Core) :
    Except CalfError (Step × List Event) := do
  let (r1, c1, ev1) ← isClosed mem c0
  match r1 with
  | .notClosed ws =>
    let (newS, c2) := updateTable c1 c1.sObj ws
    let c2b := { c2 with sObj := newS }
    let (c3, ev2) ← createFsObjects mem c2b
    .ok (.again c3, ev1 ++ ev2)
  | .closed =>
    let (r2, c2, ev2) ← isConsistent mem c1
    match r2 with
    | .consistent => .ok (.halt c2, ev1 ++ ev2)
    | .notConsistent _ =>
      let (r3, c3, ev3) ← isConsistent mem c2
      match r3 with
      | .notConsistent ws =>
        let (newE, c4) := updateTable c3 c3.suffixObj ws
        let c4b := { c4 with suffixObj := newE }
        let c5 := createSuffixPowerSet c4b
        .ok (.again c5, ev1 ++ ev2 ++ ev3)
      | .consistent =>
        let (r4, c4, ev4) ← isClosed mem c3
        match r4 with
        | .closed => .ok (.halt c4, ev1 ++ ev2 ++ ev3 ++ ev4)
        | .notClosed _ => .ok (.again c4, ev1 ++ ev2 ++ ev3 ++ ev4)

/-- Outcome of iterating the loop with a fuel bound. -/
inductive RunRes where
  | halted (c : Core)
  | fuelOut (c : Core)
deriving DecidableEq

/-- The refinement loop of `run`, iterated up to `fuel` times. -/
def runFuel (mem : String → Bool) : Nat → Core → Except CalfError (RunRes × List Event)
  | 0, c => .ok (.fuelOut c, [])
  | n + 1, c => do
    let (s, ev) ← runIter mem c
    match s with
    | .halt c2 => .ok (.halted c2, ev)
    | .again c2 =>
      let (r, ev2) ← runFuel mem n c2
      .ok (r, ev ++ ev2)

/-- `CALF::new`: register the alphabet, initialize S, E and 2^E to the
singleton {ε}, then rebuild 2^E from E and build the product S×A (which
creates the initial S → 2^E row morphism through membership queries). -/
def calfNew (mem : String → Bool) (alphaElems : List String) :
    Except CalfError (Core × List Event) := do
  let alpha : Obj := ⟨.base 0, alphaElems⟩
  let s0 : Obj := ⟨.base 1, [""]⟩
  let e0 : Obj := ⟨.base 2, [""]⟩
  let ps0 : Obj := ⟨.base 3, [""]⟩
  let fs0 : Obj := ⟨.base 4, []⟩
  let fh0 : Obj := ⟨.base 5, []⟩
  let c : Core := { store := [], objects := [alpha, s0, e0, ps0],
                    sObj := s0, fsObj := fs0, fhObj := fh0, suffixObj := e0,
                    alphabets := alpha, powObj := ps0, freshId := 6 }
  let c2 := createSuffixPowerSet c
  createFsObjects mem c2

/-- The observation-row mapping of an object: each element label paired with
its row label (the mapping contract of `add_power_set_morphism`). -/
def rowMap (mem : String → Bool) (suffixes xs : List String) : List (String × String) :=
  xs.map (fun x => (x, rowLabel mem suffixes x))

/-- The word spelled by a boolean vector, one `boolStr` block per entry. -/
def boolWord (bs : List Bool) : String :=
  bs.foldl (fun acc b => acc ++ boolStr b) ""

/-- The number whose low bits spell the given boolean vector
(least-significant bit first). -/
def natOfBits : List Bool → Nat
  | [] => 0
  | b :: bs => (if b then 1 else 0) + 2 * natOfBits bs

/-- The morphism S → 2^E that honest materialization produces for the current
S, E and oracle. -/
def honestS2p (mem : String → Bool) (c : Core) : Mor :=
  ⟨c.sObj, c.powObj, rowMap mem c.suffixObj.elems c.sObj.elems⟩

/-- The morphism FS → 2^E that honest materialization produces. -/
def honestFs2p (mem : String → Bool) (c : Core) : Mor :=
  ⟨c.fsObj, c.powObj, rowMap mem c.suffixObj.elems c.fsObj.elems⟩

/-- `c2` extends `c` by appending morphisms to the store, all other fields
unchanged. -/
def storeExt (c c2 : Core) : Prop :=
  ∃ ms, c2 = { c with store := c.store ++ ms }

/-- Two source elements of FS fall in the same FH class but carry different
rows: the consistency-conflict situation of `is_consistent`. -/
def fhCollision (fsfh fs2p : List (String × String)) : Prop :=
  ∃ x1 r1 x2 r2 fh, (x1, r1) ∈ fs2p ∧ (x2, r2) ∈ fs2p ∧
    alookup fsfh x1 = some fh ∧ alookup fsfh x2 = some fh ∧ r1 ≠ r2

/-! Concrete scenario states.  All of them use the alphabet {a, b}; the
objects carry the identities a freshly initialized engine would assign. -/

/-- Oracle accepting exactly the word a (the growth-witness scenario). -/
def mem1 : String → Bool := fun w => w == "a"

/-- Oracle accepting every nonempty word. -/
def mem3 : String → Bool := fun w => !(w == "")

/-- Oracle accepting exactly the word baba. -/
def mem9 : String → Bool := fun w => w == "baba"

def scAlpha : Obj := ⟨.base 0, ["a", "b"]⟩
def scS : Obj := ⟨.base 1, [""]⟩
def scE : Obj := ⟨.base 2, [""]⟩
def scPow : Obj := ⟨.base 3, ["false", "true"]⟩
def scFS : Obj := ⟨.base 4, ["a", "b"]⟩
def scFH : Obj := ⟨.base 5, ["falsea", "falseb"]⟩

def scS2p : Mor := ⟨scS, scPow, [("", "false")]⟩
def scFs2p : Mor := ⟨scFS, scPow, [("a", "true"), ("b", "false")]⟩
def scFsfh : Mor := ⟨scFS, scFH, [("a", "falsea"), ("b", "falseb")]⟩

/-- A cached FH → 2^E morphism that disagrees with the composite
FS → FH → 2^E (it sends every FH element to the all-false row although the
row of a is true). -/
def scStale : Mor := ⟨scFH, scPow, [("falsea", "false"), ("falseb", "false")]⟩

/-- State for the C1 counterexample: the row morphisms are the honest ones for
`mem1`, and a stale FH → 2^E morphism is cached in the store. -/
def c1st : Core :=
  { store := [scS2p, scFs2p, scFsfh, scStale],
    objects := [scAlpha, scS, scE, scPow, scFS, scFH],
    sObj := scS, fsObj := scFS, fhObj := scFH, suffixObj := scE,
    alphabets := scAlpha, powObj := scPow, freshId := 6 }

/-- A cached FS → H morphism that disagrees with the row morphism FS → 2^E
(it sends a to the all-false state although the row of a is true). -/
def scStaleFsToH : Mor := ⟨scFS, hObj scS2p, [("a", "false"), ("b", "false")]⟩

/-- State for the C2 failing input: honest row morphisms for `mem1`, plus a
cached stale FS → H morphism. -/
def c2st : Core :=
  { store := [scS2p, scFs2p, scStaleFsToH],
    objects := [scAlpha, scS, scE, scPow, scFS],
    sObj := scS, fsObj := scFS, fhObj := scFH, suffixObj := scE,
    alphabets := scAlpha, powObj := scPow, freshId := 6 }

/-- The honest FS → 2^E morphism for `mem3`: both a and b have the row true,
which does not occur among the rows of S = {ε}. -/
def scFs2pTwoBad : Mor := ⟨scFS, scPow, [("a", "true"), ("b", "true")]⟩

/-- State for the C3 counterexample: two elements of FS lack a matching image
in H. -/
def c3st : Core :=
  { store := [scS2p, scFs2pTwoBad, scFsfh],
    objects := [scAlpha, scS, scE, scPow, scFS, scFH],
    sObj := scS, fsObj := scFS, fhObj := scFH, suffixObj := scE,
    alphabets := scAlpha, powObj := scPow, freshId := 6 }

/-- State for the C5 witness: two copies of the morphism S → 2^E are
registered. -/
def c5st : Core :=
  { store := [scS2p, scS2p],
    objects := [scAlpha, scS, scE, scPow, scFS],
    sObj := scS, fsObj := scFS, fhObj := scFH, suffixObj := scE,
    alphabets := scAlpha, powObj := scPow, freshId := 6 }

/-- State for the C5 witness: two copies of a morphism FH → 2^E are
registered. -/
def c5stFH : Core :=
  { store := [scS2p, scFs2p, scFsfh, scStale, scStale],
    objects := [scAlpha, scS, scE, scPow, scFS, scFH],
    sObj := scS, fsObj := scFS, fhObj := scFH, suffixObj := scE,
    alphabets := scAlpha, powObj := scPow, freshId := 6 }

/-- State for the C6 witness: a bare store, so row morphisms are materialized
from scratch; the power-set object matches E. -/
def c6st : Core :=
  { store := [],
    objects := [scAlpha, scS, scE, scPow, scFS],
    sObj := scS, fsObj := scFS, fhObj := scFH, suffixObj := scE,
    alphabets := scAlpha, powObj := scPow, freshId := 6 }

/-- A stale power-set object for the C6 failure case: 2^E was not rebuilt, so
the row of a (true) has no element carrying its label. -/
def c6bad : Core :=
  { store := [],
    objects := [scAlpha, scS, scE, scFS],
    sObj := scS, fsObj := scFS, fhObj := scFH, suffixObj := scE,
    alphabets := scAlpha, powObj := ⟨.base 3, ["false"]⟩, freshId := 6 }

def c9S : Obj := ⟨.base 1, ["", "b", "ba"]⟩
def c9E : Obj := ⟨.base 2, ["", "ba"]⟩
def c9Pow : Obj := ⟨.base 3, ["falsefalse", "truefalse", "falsetrue", "truetrue"]⟩
def c9FS : Obj := ⟨.base 4, ["a", "b", "ba", "bb", "baa", "bab"]⟩
def c9FH : Obj := ⟨.base 5, ["falsefalsea", "falsefalseb", "falsetruea", "falsetrueb"]⟩

def c9s2p : Mor :=
  ⟨c9S, c9Pow, [("", "falsefalse"), ("b", "falsefalse"), ("ba", "falsetrue")]⟩

def c9fs2p : Mor :=
  ⟨c9FS, c9Pow,
   [("a", "falsefalse"), ("b", "falsefalse"), ("ba", "falsetrue"),
    ("bb", "falsefalse"), ("baa", "falsefalse"), ("bab", "falsefalse")]⟩

def c9fsfh : Mor :=
  ⟨c9FS, c9FH,
   [("a", "falsefalsea"), ("b", "falsefalseb"), ("ba", "falsefalsea"),
    ("bb", "falsefalseb"), ("baa", "falsetruea"), ("bab", "falsetrueb")]⟩

/-- State for the C9 counterexample: a closed but inconsistent table for
`mem9` whose consistency conflict witness ba already belongs to E, so the
E-growth step is a no-op on the element count.  All row morphisms are the
honest ones for `mem9`, and FS → FH is the product of the epic half of
S → 2^E with the alphabet. -/
def c9st : Core :=
  { store := [c9s2p, c9fs2p, c9fsfh],
    objects := [scAlpha, c9S, c9E, c9Pow, c9FS, c9FH],
    sObj := c9S, fsObj := c9FS, fhObj := c9FH, suffixObj := c9E,
    alphabets := scAlpha, powObj := c9Pow, freshId := 6 }

/-- Oracle rejecting every word. -/
def memFalse : String → Bool := fun _ => false

/-- The honest FS → 2^E morphism for `memFalse`: every row is false. -/
def scFs2pF : Mor := ⟨scFS, scPow, [("a", "false"), ("b", "false")]⟩

/-- A closed and consistent state for `memFalse`: the first iteration of the
loop halts here. -/
def cHaltSt : Core :=
  { store := [scS2p, scFs2pF, scFsfh],
    objects := [scAlpha, scS, scE, scPow, scFS, scFH],
    sObj := scS, fsObj := scFS, fhObj := scFH, suffixObj := scE,
    alphabets := scAlpha, powObj := scPow, freshId := 6 }

/-- A Rust panic (`todo!()`). -/
inductive RustPanic where
  | unimplemented
deriving DecidableEq

/-- `RegexOracle::equivalence_query` (regex_oracle.rs lines 32-34): the body is
`todo!()`, an unconditional panic, modelled as an always-failing
computation. -/
def regexEquivalenceQuery (α : Type) (_hypothesis : α) : Except RustPanic (Option String) :=
  .error .unimplemented

/-! Helper lemmas: association lists. -/

theorem alookup_eq_some_mem {l : List (String × String)} {x v : String}
    (h : alookup l x = some v) : (x, v) ∈ l := by
  induction l with
  | nil => simp [alookup] at h
  | cons p rest ih =>
    obtain ⟨k, w⟩ := p
    by_cases hk : k = x
    · subst hk
      simp [alookup] at h
      subst h
      exact List.mem_cons_self _ _
    · simp only [alookup, if_neg hk] at h
      exact List.mem_cons_of_mem _ (ih h)

theorem alookup_graph (f : String → String) (xs : List String) (y : String) :
    alookup (xs.map (fun x => (x, f x))) y = if y ∈ xs then some (f y) else none := by
  induction xs with
  | nil => simp [alookup]
  | cons a rest ih =>
    by_cases ha : a = y
    · subst ha
      simp [alookup, ih]
    · simp only [List.map_cons, alookup, if_neg ha, ih, List.mem_cons]
      have : (y = a ∨ y ∈ rest) ↔ y ∈ rest := by
        constructor
        · rintro (h | h)
          · exact absurd h.symm ha
          · exact h
        · exact Or.inr
      rw [if_congr this rfl rfl]

theorem alookup_diag (l : List String) (y : String) :
    alookup (l.map (fun r => (r, r))) y = if y ∈ l then some y else none :=
  alookup_graph id l y

theorem alookup_append_of_some {l1 l2 : List (String × String)} {x v : String}
    (h : alookup l1 x = some v) : alookup (l1 ++ l2) x = some v := by
  induction l1 with
  | nil => simp [alookup] at h
  | cons p rest ih =>
    obtain ⟨k, w⟩ := p
    by_cases hk : k = x
    · subst hk
      simp [alookup] at h
      simp [alookup, h]
    · simp only [List.cons_append, alookup, if_neg hk] at h ⊢
      exact ih h

theorem alookup_append_of_none {l1 l2 : List (String × String)} {x : String}
    (h : alookup l1 x = none) : alookup (l1 ++ l2) x = alookup l2 x := by
  induction l1 with
  | nil => simp
  | cons p rest ih =>
    obtain ⟨k, w⟩ := p
    by_cases hk : k = x
    · subst hk
      simp [alookup] at h
    · simp only [List.cons_append, alookup, if_neg hk] at h ⊢
      exact ih h

/-! Helper lemmas: row labels as boolean words. -/

theorem foldl_append_shift (f : α → String) (l : List α) (s : String) :
    l.foldl (fun acc a => acc ++ f a) s = s ++ l.foldl (fun acc a => acc ++ f a) "" := by
  induction l generalizing s with
  | nil => simp
  | cons a rest ih =>
    simp only [List.foldl_cons]
    rw [ih (s ++ f a), ih ("" ++ f a)]
    apply String.ext
    simp [String.data_append, List.append_assoc]

theorem boolWord_cons (b : Bool) (bs : List Bool) :
    boolWord (b :: bs) = boolStr b ++ boolWord bs := by
  unfold boolWord
  simp only [List.foldl_cons]
  rw [foldl_append_shift]
  apply String.ext
  simp [String.data_append]

theorem boolStr_block_inj {b1 b2 : Bool} {s1 s2 : String}
    (h : boolStr b1 ++ s1 = boolStr b2 ++ s2) : b1 = b2 ∧ s1 = s2 := by
  have hd := congrArg String.data h
  rw [String.data_append, String.data_append] at hd
  cases b1 <;> cases b2 <;> simp only [boolStr] at hd ⊢
  · exact ⟨trivial, String.ext (List.append_cancel_left hd)⟩
  · simp at hd
  · simp at hd
  · exact ⟨trivial, String.ext (List.append_cancel_left hd)⟩

theorem boolWord_inj : ∀ {bs1 bs2 : List Bool}, bs1.length = bs2.length →
    boolWord bs1 = boolWord bs2 → bs1 = bs2 := by
  intro bs1
  induction bs1 with
  | nil =>
    intro bs2 hl _
    exact (List.length_eq_zero.mp hl.symm).symm
  | cons b rest ih =>
    intro bs2 hl hw
    cases bs2 with
    | nil => simp at hl
    | cons b2 rest2 =>
      rw [boolWord_cons, boolWord_cons] at hw
      obtain ⟨hb, hs⟩ := boolStr_block_inj hw
      simp only [List.length_cons, Nat.add_right_cancel_iff] at hl
      rw [hb, ih hl hs]

theorem rowLabel_eq_boolWord (mem : String → Bool) (suffixes : List String) (x : String) :
    rowLabel mem suffixes x = boolWord (suffixes.map (fun e => mem (x ++ e))) := by
  unfold rowLabel boolWord
  rw [List.foldl_map]

theorem psLabel_eq_boolWord (n i : Nat) :
    psLabel n i = boolWord ((List.range n).map i.testBit) := by
  unfold psLabel boolWord
  rw [List.foldl_map]

theorem rowLabel_pointwise (mem : String → Bool) (suffixes : List String) {x y : String}
    (h : rowLabel mem suffixes x = rowLabel mem suffixes y) :
    ∀ e ∈ suffixes, mem (x ++ e) = mem (y ++ e) := by
  rw [rowLabel_eq_boolWord, rowLabel_eq_boolWord] at h
  have := boolWord_inj (by simp) h
  exact List.map_eq_map_iff.mp this

theorem natOfBits_lt (bs : List Bool) : natOfBits bs < 2 ^ bs.length := by
  induction bs with
  | nil => simp [natOfBits]
  | cons b rest ih =>
    simp only [natOfBits, List.length_cons, pow_succ]
    cases b <;> simp <;> omega

theorem range_map_testBit_natOfBits (bs : List Bool) :
    (List.range bs.length).map (natOfBits bs).testBit = bs := by
  induction bs with
  | nil => simp
  | cons b rest ih =>
    simp only [List.length_cons, List.range_succ_eq_map, List.map_cons, List.map_map]
    have hhead : (natOfBits (b :: rest)).testBit 0 = b := by
      rw [Nat.testBit_zero]
      cases b <;> simp [natOfBits] <;> omega
    have hstep : ∀ j : Nat,
        (natOfBits (b :: rest)).testBit (j + 1) = (natOfBits rest).testBit j := by
      intro j
      rw [Nat.testBit_succ]
      have hdiv : natOfBits (b :: rest) / 2 = natOfBits rest := by
        simp only [natOfBits]
        cases b <;> simp <;> omega
      rw [hdiv]
    have htail : (List.range rest.length).map ((natOfBits (b :: rest)).testBit ∘ Nat.succ)
        = rest := by
      calc (List.range rest.length).map ((natOfBits (b :: rest)).testBit ∘ Nat.succ)
          = (List.range rest.length).map (natOfBits rest).testBit := by
            apply List.map_congr_left
            intro j _
            exact hstep j
        _ = rest := ih
    rw [hhead, htail]

theorem psLabel_inj {n i j : Nat} (hi : i < 2 ^ n) (hj : j < 2 ^ n)
    (h : psLabel n i = psLabel n j) : i = j := by
  rw [psLabel_eq_boolWord, psLabel_eq_boolWord] at h
  have hmap := boolWord_inj (by simp) h
  have hbits := List.map_eq_map_iff.mp hmap
  apply Nat.eq_of_testBit_eq
  intro k
  by_cases hk : k < n
  · exact hbits k (List.mem_range.mpr hk)
  · have hik : i.testBit k = false :=
      Nat.testBit_lt_two_pow (lt_of_lt_of_le hi (Nat.pow_le_pow_right (by omega) (by omega)))
    have hjk : j.testBit k = false :=
      Nat.testBit_lt_two_pow (lt_of_lt_of_le hj (Nat.pow_le_pow_right (by omega) (by omega)))
    rw [hik, hjk]

/-! Helper lemmas: the element-wise builders. -/

theorem powerMapAux_ok_of_all (mem : String → Bool) (suf pow : List String)
    (xs : List String) (h : ∀ x ∈ xs, rowLabel mem suf x ∈ pow) :
    powerMapAux mem suf pow xs = .ok (rowMap mem suf xs) := by
  induction xs with
  | nil => simp [powerMapAux, rowMap]
  | cons x rest ih =>
    have hx : rowLabel mem suf x ∈ pow := h x (List.mem_cons_self _ _)
    have hrest := ih (fun y hy => h y (List.mem_cons_of_mem _ hy))
    simp [powerMapAux, hx, hrest, rowMap, Except.map]

theorem powerMapAux_error_of_missing (mem : String → Bool) (suf pow : List String)
    (xs : List String) (h : ∃ x ∈ xs, rowLabel mem suf x ∉ pow) :
    powerMapAux mem suf pow xs = .error .unknownError := by
  induction xs with
  | nil => simp at h
  | cons x rest ih =>
    by_cases hx : rowLabel mem suf x ∈ pow
    · have hrest : ∃ y ∈ rest, rowLabel mem suf y ∉ pow := by
        obtain ⟨y, hy, hny⟩ := h
        rcases List.mem_cons.mp hy with h1 | h1
        · subst h1; exact absurd hx hny
        · exact ⟨y, h1, hny⟩
      simp [powerMapAux, hx, ih hrest, Except.map]
    · simp [powerMapAux, hx]

theorem buildFsToH_ok_forall {rev : List (String × String)}
    {l : List (String × String)} {mp : List (String × String)}
    (h : buildFsToH rev l = .ok mp) :
    ∀ p ∈ l, ∃ hh, alookup rev p.2 = some hh := by
  induction l generalizing mp with
  | nil => intro p hp; simp at hp
  | cons q rest ih =>
    obtain ⟨x, r⟩ := q
    intro p hp
    cases hl : alookup rev r with
    | none => simp [buildFsToH, hl] at h
    | some hh =>
      simp only [buildFsToH, hl] at h
      cases hrec : buildFsToH rev rest with
      | error e => rw [hrec] at h; simp [Except.map] at h
      | ok t =>
        rw [hrec] at h
        rcases List.mem_cons.mp hp with h1 | h1
        · subst h1; exact ⟨hh, hl⟩
        · exact ih hrec p h1

theorem buildFsToH_error_of_missing {rev : List (String × String)}
    {l : List (String × String)}
    (h : ∃ p ∈ l, alookup rev p.2 = none) :
    ∃ x r, buildFsToH rev l = .error [x] ∧ (x, r) ∈ l ∧ alookup rev r = none := by
  induction l with
  | nil => simp at h
  | cons q rest ih =>
    obtain ⟨x, r⟩ := q
    cases hl : alookup rev r with
    | none =>
      exact ⟨x, r, by simp [buildFsToH, hl], List.mem_cons_self _ _, hl⟩
    | some hh =>
      have hrest : ∃ p ∈ rest, alookup rev p.2 = none := by
        obtain ⟨p, hp, hnp⟩ := h
        rcases List.mem_cons.mp hp with h1 | h1
        · subst h1; simp at hnp; rw [hnp] at hl; cases hl
        · exact ⟨p, h1, hnp⟩
      obtain ⟨x2, r2, herr, hmem, hnone⟩ := ih hrest
      exact ⟨x2, r2, by simp [buildFsToH, hl, herr, Except.map],
             List.mem_cons_of_mem _ hmem, hnone⟩

theorem buildFsToH_error_shape {rev : List (String × String)} :
    ∀ {l : List (String × String)} {ws : List String},
      buildFsToH rev l = .error ws →
      ∃ x r, ws = [x] ∧ (x, r) ∈ l ∧ alookup rev r = none := by
  intro l
  induction l with
  | nil =>
    intro ws h
    simp [buildFsToH] at h
  | cons q rest ih =>
    obtain ⟨x, r⟩ := q
    intro ws h
    cases hl : alookup rev r with
    | none =>
      simp only [buildFsToH, hl, Except.error.injEq] at h
      exact ⟨x, r, h.symm, List.mem_cons_self _ _, hl⟩
    | some hh =>
      simp only [buildFsToH, hl] at h
      cases hrec : buildFsToH rev rest with
      | error e =>
        rw [hrec] at h
        simp only [Except.map, Except.error.injEq] at h
        obtain ⟨x2, r2, hsh, hmem, hnone⟩ := ih hrec
        exact ⟨x2, r2, by rw [← h, hsh], List.mem_cons_of_mem _ hmem, hnone⟩
      | ok t =>
        rw [hrec] at h
        simp [Except.map] at h

theorem buildFsToH_closed_form {rev : List (String × String)} :
    ∀ l : List (String × String), (∀ p ∈ l, (alookup rev p.2).isSome) →
      ∃ mp, buildFsToH rev l = .ok mp := by
  intro l
  induction l with
  | nil => intro _; exact ⟨[], rfl⟩
  | cons q rest ih =>
    obtain ⟨x, r⟩ := q
    intro h
    have hx := h (x, r) (List.mem_cons_self _ _)
    cases hl : alookup rev r with
    | none => rw [hl] at hx; simp at hx
    | some hh =>
      obtain ⟨mp, hmp⟩ := ih (fun p hp => h p (List.mem_cons_of_mem _ hp))
      exact ⟨(x, hh) :: mp, by simp [buildFsToH, hl, hmp, Except.map]⟩

theorem buildFhToPow_built_agrees {fsfh : List (String × String)} :
    ∀ (l acc mp : List (String × String)), buildFhToPow fsfh l acc = .built mp →
      (∀ fh r, alookup acc fh = some r → alookup mp fh = some r) ∧
      (∀ p ∈ l, ∀ fh, alookup fsfh p.1 = some fh → alookup mp fh = some p.2) := by
  intro l
  induction l with
  | nil =>
    intro acc mp h
    simp only [buildFhToPow, BuildFh.built.injEq] at h
    subst h
    exact ⟨fun _ _ hv => hv, fun p hp => by simp at hp⟩
  | cons q rest ih =>
    obtain ⟨x, r⟩ := q
    intro acc mp h
    cases hfh : alookup fsfh x with
    | none => simp [buildFhToPow, hfh] at h
    | some fh =>
      simp only [buildFhToPow, hfh] at h
      cases hacc : alookup acc fh with
      | some r2 =>
        simp only [hacc] at h
        by_cases hr : r2 = r
        · rw [if_pos hr] at h
          obtain ⟨hext, hall⟩ := ih acc mp h
          refine ⟨hext, ?_⟩
          intro p hp fh2 hp2
          rcases List.mem_cons.mp hp with h1 | h1
          · subst h1
            simp only at hp2
            rw [hp2] at hfh
            cases hfh
            subst hr
            exact hext _ _ hacc
          · exact hall p h1 fh2 hp2
        · rw [if_neg hr] at h
          cases h
      | none =>
        simp only [hacc] at h
        obtain ⟨hext, hall⟩ := ih (acc ++ [(fh, r)]) mp h
        have hmid : alookup (acc ++ [(fh, r)]) fh = some r := by
          rw [alookup_append_of_none hacc]
          simp [alookup]
        refine ⟨fun g v hv => hext g v (alookup_append_of_some hv), ?_⟩
        intro p hp fh2 hp2
        rcases List.mem_cons.mp hp with h1 | h1
        · subst h1
          simp only at hp2
          rw [hp2] at hfh
          cases hfh
          exact hext _ _ hmid
        · exact hall p h1 fh2 hp2

theorem buildFhToPow_conflict_origin {fsfh : List (String × String)}
    (full : List (String × String)) :
    ∀ (l acc : List (String × String)) (ws : List String),
      buildFhToPow fsfh l acc = .conflict ws →
      (∀ q ∈ acc, ∃ x1, alookup fsfh x1 = some q.1 ∧ (x1, q.2) ∈ full) →
      (∀ p ∈ l, p ∈ full) →
      ∃ x r x1 r1 fh, ws = [x] ∧ (x, r) ∈ full ∧ (x1, r1) ∈ full ∧
        alookup fsfh x = some fh ∧ alookup fsfh x1 = some fh ∧ r1 ≠ r := by
  intro l
  induction l with
  | nil =>
    intro acc ws h _ _
    simp [buildFhToPow] at h
  | cons q rest ih =>
    obtain ⟨x, r⟩ := q
    intro acc ws h hacc hsub
    cases hfh : alookup fsfh x with
    | none => simp [buildFhToPow, hfh] at h
    | some fh =>
      simp only [buildFhToPow, hfh] at h
      cases hl : alookup acc fh with
      | some r2 =>
        simp only [hl] at h
        by_cases hr : r2 = r
        · rw [if_pos hr] at h
          exact ih acc ws h hacc (fun p hp => hsub p (List.mem_cons_of_mem _ hp))
        · rw [if_neg hr] at h
          cases h
          obtain ⟨x1, hx1, hmem1⟩ := hacc (fh, r2) (alookup_eq_some_mem hl)
          exact ⟨x, r, x1, r2, fh, rfl, hsub (x, r) (List.mem_cons_self _ _), hmem1,
                 hfh, hx1, hr⟩
      | none =>
        simp only [hl] at h
        refine ih (acc ++ [(fh, r)]) ws h ?_ (fun p hp => hsub p (List.mem_cons_of_mem _ hp))
        intro q hq
        rcases List.mem_append.mp hq with h1 | h1
        · exact hacc q h1
        · simp at h1
          subst h1
          exact ⟨x, hfh, hsub (x, r) (List.mem_cons_self _ _)⟩

theorem buildFhToPow_not_invalid {fsfh : List (String × String)} :
    ∀ (l acc : List (String × String)), (∀ p ∈ l, (alookup fsfh p.1).isSome) →
      buildFhToPow fsfh l acc ≠ .invalid := by
  intro l
  induction l with
  | nil =>
    intro acc _ h
    simp [buildFhToPow] at h
  | cons q rest ih =>
    obtain ⟨x, r⟩ := q
    intro acc htot h
    have hx := htot (x, r) (List.mem_cons_self _ _)
    cases hfh : alookup fsfh x with
    | none => rw [hfh] at hx; simp at hx
    | some fh =>
      simp only [buildFhToPow, hfh] at h
      cases hl : alookup acc fh with
      | some r2 =>
        simp only [hl] at h
        by_cases hr : r2 = r
        · rw [if_pos hr] at h
          exact ih acc (fun p hp => htot p (List.mem_cons_of_mem _ hp)) h
        · rw [if_neg hr] at h
          cases h
      | none =>
        simp only [hl] at h
        exact ih _ (fun p hp => htot p (List.mem_cons_of_mem _ hp)) h

theorem buildFhToPow_conflict_of_collision {fsfh l : List (String × String)}
    (htot : ∀ p ∈ l, (alookup fsfh p.1).isSome)
    (hcol : fhCollision fsfh l) : ∃ ws, buildFhToPow fsfh l [] = .conflict ws := by
  cases hres : buildFhToPow fsfh l [] with
  | built mp =>
    obtain ⟨x1, r1, x2, r2, fh, hm1, hm2, ha1, ha2, hne⟩ := hcol
    have h1 := (buildFhToPow_built_agrees l [] mp hres).2 (x1, r1) hm1 fh ha1
    have h2 := (buildFhToPow_built_agrees l [] mp hres).2 (x2, r2) hm2 fh ha2
    rw [h1] at h2
    cases h2
    exact absurd rfl hne
  | conflict ws => exact ⟨ws, rfl⟩
  | invalid => exact absurd hres (buildFhToPow_not_invalid l [] htot)

/-! Helper lemmas: store extension and framing. -/

theorem storeExt_refl (c : Core) : storeExt c c :=
  ⟨[], by rw [List.append_nil]⟩

theorem storeExt_trans {c1 c2 c3 : Core} (h1 : storeExt c1 c2) (h2 : storeExt c2 c3) :
    storeExt c1 c3 := by
  obtain ⟨ms1, rfl⟩ := h1
  obtain ⟨ms2, rfl⟩ := h2
  exact ⟨ms1 ++ ms2, by simp [List.append_assoc]⟩

theorem storeExt_fields {c c2 : Core} (h : storeExt c c2) :
    c2.sObj = c.sObj ∧ c2.fsObj = c.fsObj ∧ c2.fhObj = c.fhObj ∧
    c2.suffixObj = c.suffixObj ∧ c2.alphabets = c.alphabets ∧
    c2.powObj = c.powObj ∧ c2.objects = c.objects ∧ c2.freshId = c.freshId := by
  obtain ⟨ms, rfl⟩ := h
  exact ⟨rfl, rfl, rfl, rfl, rfl, rfl, rfl, rfl⟩

theorem addPowerSetMorphism_storeExt {mem : String → Bool} {c : Core} {obj : Obj}
    {c2 : Core} {ev : List Event} (h : addPowerSetMorphism mem c obj = .ok (c2, ev)) :
    storeExt c c2 := by
  unfold addPowerSetMorphism at h
  cases hpm : powerMapAux mem c.suffixObj.elems c.powObj.elems obj.elems with
  | ok mp =>
    rw [hpm] at h
    simp only [Except.ok.injEq, Prod.mk.injEq] at h
    exact ⟨_, h.1.symm⟩
  | error e =>
    rw [hpm] at h
    cases h

theorem getOrCreateSToPow_cached {mem : String → Bool} {c : Core} {m : Mor}
    (h : homSet c.store c.sObj c.powObj = [m]) :
    getOrCreateSToPow mem c = .ok (m, c, []) := by
  simp [getOrCreateSToPow, h]

theorem getOrCreateFsToPow_cached {mem : String → Bool} {c : Core} {m : Mor}
    (h : homSet c.store c.fsObj c.powObj = [m]) :
    getOrCreateFsToPow mem c = .ok (m, c, []) := by
  simp [getOrCreateFsToPow, h]

theorem getOrCreateSToPow_storeExt {mem : String → Bool} {c : Core} {m : Mor}
    {c2 : Core} {ev : List Event} (h : getOrCreateSToPow mem c = .ok (m, c2, ev)) :
    storeExt c c2 := by
  unfold getOrCreateSToPow at h
  by_cases h1 : (homSet c.store c.sObj c.powObj).length > 1
  · simp only [if_pos h1] at h
    cases h
  · simp only [if_neg h1] at h
    cases h2 : (homSet c.store c.sObj c.powObj).getLast? with
    | some m2 =>
      simp only [h2, Except.ok.injEq, Prod.mk.injEq] at h
      rw [← h.2.1]
      exact storeExt_refl c
    | none =>
      simp only [h2] at h
      cases h3 : addPowerSetMorphism mem c c.sObj with
      | error e =>
        rw [h3] at h
        cases h
      | ok p =>
        obtain ⟨c3, ev3⟩ := p
        rw [h3] at h
        by_cases h4 : (homSet c3.store c3.sObj c3.powObj).length > 1
        · simp only [if_pos h4] at h
          cases h
        · simp only [if_neg h4] at h
          cases h5 : (homSet c3.store c3.sObj c3.powObj).getLast? with
          | some m5 =>
            simp only [h5, Except.ok.injEq, Prod.mk.injEq] at h
            rw [← h.2.1]
            exact addPowerSetMorphism_storeExt h3
          | none =>
            simp only [h5] at h
            cases h

theorem getOrCreateFsToPow_storeExt {mem : String → Bool} {c : Core} {m : Mor}
    {c2 : Core} {ev : List Event} (h : getOrCreateFsToPow mem c = .ok (m, c2, ev)) :
    storeExt c c2 := by
  unfold getOrCreateFsToPow at h
  by_cases h1 : (homSet c.store c.fsObj c.powObj).length > 1
  · simp only [if_pos h1] at h
    cases h
  · simp only [if_neg h1] at h
    cases h2 : (homSet c.store c.fsObj c.powObj).getLast? with
    | some m2 =>
      simp only [h2, Except.ok.injEq, Prod.mk.injEq] at h
      rw [← h.2.1]
      exact storeExt_refl c
    | none =>
      simp only [h2] at h
      cases h3 : addPowerSetMorphism mem c c.fsObj with
      | error e =>
        rw [h3] at h
        cases h
      | ok p =>
        obtain ⟨c3, ev3⟩ := p
        rw [h3] at h
        by_cases h4 : (homSet c3.store c3.fsObj c3.powObj).length > 1
        · simp only [if_pos h4] at h
          cases h
        · simp only [if_neg h4] at h
          cases h5 : (homSet c3.store c3.fsObj c3.powObj).getLast? with
          | some m5 =>
            simp only [h5, Except.ok.injEq, Prod.mk.injEq] at h
            rw [← h.2.1]
            exact addPowerSetMorphism_storeExt h3
          | none =>
            simp only [h5] at h
            cases h

theorem isClosed_storeExt {mem : String → Bool} {c : Core} {r : ClosedRes}
    {c2 : Core} {ev : List Event} (h : isClosed mem c = .ok (r, c2, ev)) :
    storeExt c c2 := by
  unfold isClosed at h
  cases h1 : getOrCreateSToPow mem c with
  | error e =>
    rw [h1] at h
    simp only [bind, Except.bind] at h
    cases h
  | ok p1 =>
    obtain ⟨s2p, c1, ev1⟩ := p1
    rw [h1] at h
    simp only [bind, Except.bind] at h
    cases h2 : getOrCreateFsToPow mem c1 with
    | error e =>
      rw [h2] at h
      simp only [Except.bind] at h
      cases h
    | ok p2 =>
      obtain ⟨fs2p, c1b, ev2⟩ := p2
      rw [h2] at h
      simp only [Except.bind] at h
      have hx : storeExt c c1b :=
        storeExt_trans (getOrCreateSToPow_storeExt h1) (getOrCreateFsToPow_storeExt h2)
      split at h
      · cases h
      · split at h
        · split at h
          · simp only [Except.ok.injEq, Prod.mk.injEq] at h
            obtain ⟨h5, h6, h7⟩ := h
            rw [← h6]
            exact hx
          · split at h
            · simp only [Except.ok.injEq, Prod.mk.injEq] at h
              obtain ⟨h5, h6, h7⟩ := h
              rw [← h6]
              exact storeExt_trans hx ⟨_, rfl⟩
            · simp only [Except.ok.injEq, Prod.mk.injEq] at h
              obtain ⟨h5, h6, h7⟩ := h
              rw [← h6]
              exact storeExt_trans hx ⟨_, rfl⟩
        · split at h
          · simp only [Except.ok.injEq, Prod.mk.injEq] at h
            obtain ⟨h5, h6, h7⟩ := h
            rw [← h6]
            exact hx
          · simp only [Except.ok.injEq, Prod.mk.injEq] at h
            obtain ⟨h5, h6, h7⟩ := h
            rw [← h6]
            exact hx

theorem isConsistent_storeExt {mem : String → Bool} {c : Core} {r : ConsRes}
    {c2 : Core} {ev : List Event} (h : isConsistent mem c = .ok (r, c2, ev)) :
    storeExt c c2 := by
  unfold isConsistent at h
  cases h1 : getOrCreateSToPow mem c with
  | error e =>
    rw [h1] at h
    simp only [bind, Except.bind] at h
    cases h
  | ok p1 =>
    obtain ⟨s2p, c1, ev1⟩ := p1
    rw [h1] at h
    simp only [bind, Except.bind] at h
    cases h2 : getOrCreateFsToPow mem c1 with
    | error e =>
      rw [h2] at h
      simp only [Except.bind] at h
      cases h
    | ok p2 =>
      obtain ⟨fs2p, c1b, ev2⟩ := p2
      rw [h2] at h
      simp only [Except.bind] at h
      have hx : storeExt c c1b :=
        storeExt_trans (getOrCreateSToPow_storeExt h1) (getOrCreateFsToPow_storeExt h2)
      split at h
      · cases h
      · split at h
        · cases h
        · split at h
          · cases h
          · split at h
            · split at h
              · cases h
              · simp only [Except.ok.injEq, Prod.mk.injEq] at h
                obtain ⟨h5, h6, h7⟩ := h
                rw [← h6]
                exact hx
              · simp only [Except.ok.injEq, Prod.mk.injEq] at h
                obtain ⟨h5, h6, h7⟩ := h
                rw [← h6]
                exact storeExt_trans hx ⟨_, rfl⟩
            · simp only [Except.ok.injEq, Prod.mk.injEq] at h
              obtain ⟨h5, h6, h7⟩ := h
              rw [← h6]
              exact hx

theorem isClosed_construction_error (mem : String → Bool) {c : Core} {s2p fs2p : Mor}
    {ws : List String}
    (h1 : homSet c.store c.sObj c.powObj = [s2p])
    (h2 : homSet c.store c.fsObj c.powObj = [fs2p])
    (hH : homSet c.store c.fsObj (hObj s2p) = [])
    (hb : buildFsToH ((monicOf s2p).map.map (fun p => (p.2, p.1))) fs2p.map = .error ws) :
    isClosed mem c = .ok (.notClosed ws, c, [.checkClosed]) := by
  unfold isClosed
  rw [getOrCreateSToPow_cached h1]
  simp only [bind, Except.bind]
  rw [getOrCreateFsToPow_cached h2]
  simp only [Except.bind, morphismFactors, epicOf, monicOf]
  simp only [monicOf] at hb
  rw [hH, hb]
  simp

theorem isClosed_construction_ok (mem : String → Bool) {c : Core} {s2p fs2p : Mor}
    {mp : List (String × String)}
    (h1 : homSet c.store c.sObj c.powObj = [s2p])
    (h2 : homSet c.store c.fsObj c.powObj = [fs2p])
    (hH : homSet c.store c.fsObj (hObj s2p) = [])
    (hb : buildFsToH ((monicOf s2p).map.map (fun p => (p.2, p.1))) fs2p.map = .ok mp) :
    isClosed mem c =
      match morphismCommute [⟨c.fsObj, hObj s2p, mp⟩, s2p] [epicOf s2p, monicOf s2p] with
      | .commutative =>
        .ok (.closed, { c with store := c.store ++ [⟨c.fsObj, hObj s2p, mp⟩] }, [.checkClosed])
      | .nonCommutative ws =>
        .ok (.notClosed ws, { c with store := c.store ++ [⟨c.fsObj, hObj s2p, mp⟩] },
             [.checkClosed]) := by
  unfold isClosed
  rw [getOrCreateSToPow_cached h1]
  simp only [bind, Except.bind]
  rw [getOrCreateFsToPow_cached h2]
  simp only [Except.bind, morphismFactors, epicOf, monicOf]
  simp only [monicOf] at hb
  rw [hH, hb]
  simp only [epicOf, monicOf]
  simp

theorem isConsistent_cached {mem : String → Bool} {c : Core} {s2p fs2p fsfh fhp : Mor}
    (h1 : homSet c.store c.sObj c.powObj = [s2p])
    (h2 : homSet c.store c.fsObj c.powObj = [fs2p])
    (h3 : homSet c.store c.fsObj c.fhObj = [fsfh])
    (h4 : homSet c.store c.fhObj c.powObj = [fhp]) :
    isConsistent mem c = .ok (.consistent, c, [.checkConsistent]) := by
  unfold isConsistent
  rw [getOrCreateSToPow_cached h1]
  simp only [bind, Except.bind]
  rw [getOrCreateFsToPow_cached h2]
  simp only [Except.bind]
  rw [h3, h4]
  simp

theorem isConsistent_fresh {mem : String → Bool} {c : Core} {s2p fs2p fsfh : Mor}
    (h1 : homSet c.store c.sObj c.powObj = [s2p])
    (h2 : homSet c.store c.fsObj c.powObj = [fs2p])
    (h3 : homSet c.store c.fsObj c.fhObj = [fsfh])
    (h4 : homSet c.store c.fhObj c.powObj = []) :
    isConsistent mem c =
      match buildFhToPow fsfh.map fs2p.map [] with
      | .invalid => .error .invalidMappingFromFStoFH
      | .conflict ws => .ok (.notConsistent ws, c, [.checkConsistent])
      | .built mp =>
        .ok (.consistent, { c with store := c.store ++ [⟨c.fhObj, c.powObj, mp⟩] },
             [.checkConsistent]) := by
  unfold isConsistent
  rw [getOrCreateSToPow_cached h1]
  simp only [bind, Except.bind]
  rw [getOrCreateFsToPow_cached h2]
  simp only [Except.bind]
  rw [h3, h4]
  cases hb : buildFhToPow fsfh.map fs2p.map [] <;> simp [hb]

theorem createFsObjects_frame {mem : String → Bool} {c c2 : Core} {ev : List Event}
    (h : createFsObjects mem c = .ok (c2, ev)) :
    c2.sObj = c.sObj ∧ c2.suffixObj = c.suffixObj ∧ c2.powObj = c.powObj ∧
    c2.alphabets = c.alphabets ∧ c2.fsObj.elems = productElems c.sObj c.alphabets := by
  unfold createFsObjects at h
  cases h1 : getOrCreateSToPow mem c with
  | error e =>
    rw [h1] at h
    simp only [bind, Except.bind] at h
    cases h
  | ok p1 =>
    obtain ⟨s2p, c1, ev1⟩ := p1
    rw [h1] at h
    simp only [bind, Except.bind] at h
    have hf := storeExt_fields (getOrCreateSToPow_storeExt h1)
    split at h
    · simp only [Except.ok.injEq, Prod.mk.injEq] at h
      obtain ⟨hc, -⟩ := h
      rw [← hc]
      simp only [applyProduct]
      exact ⟨hf.1, hf.2.2.2.1, hf.2.2.2.2.2.1, hf.2.2.2.2.1, by rw [hf.1, hf.2.2.2.2.1]⟩
    · cases h

theorem updateTable_elems (c : Core) (target : Obj) (ws : List String) :
    (updateTable c target ws).1.elems =
      target.elems ++ ws.dedup.filter (fun w => decide (w ∉ target.elems)) := rfl

theorem updateTable_len_le (c : Core) (target : Obj) (ws : List String) :
    target.elems.length ≤ (updateTable c target ws).1.elems.length := by
  rw [updateTable_elems, List.length_append]
  exact Nat.le_add_right _ _

theorem updateTable_len_strict {c : Core} {target : Obj} {ws : List String} (w : String)
    (hw : w ∈ ws) (hnot : w ∉ target.elems) :
    target.elems.length + 1 ≤ (updateTable c target ws).1.elems.length := by
  have hmem : w ∈ ws.dedup.filter (fun w => decide (w ∉ target.elems)) :=
    List.mem_filter.mpr ⟨List.mem_dedup.mpr hw, by simp [hnot]⟩
  have hpos := List.length_pos_of_mem hmem
  rw [updateTable_elems, List.length_append]
  omega

theorem runIter_notClosed_eq {mem : String → Bool} {c : Core} {ws : List String}
    {c1 : Core} {ev1 : List Event}
    (h : isClosed mem c = .ok (.notClosed ws, c1, ev1)) :
    runIter mem c =
      (createFsObjects mem
          { (updateTable c1 c1.sObj ws).2 with sObj := (updateTable c1 c1.sObj ws).1 }).map
        (fun q => (.again q.1, ev1 ++ q.2)) := by
  unfold runIter
  rw [h]
  simp only [bind, Except.bind]
  cases h2 : createFsObjects mem
      { (updateTable c1 c1.sObj ws).2 with sObj := (updateTable c1 c1.sObj ws).1 } with
  | error e => simp [h2, Except.map]
  | ok p => simp [h2, Except.map]

theorem runIter_halt1_eq {mem : String → Bool} {c : Core} {c1 c2 : Core}
    {ev1 ev2 : List Event}
    (hcl : isClosed mem c = .ok (.closed, c1, ev1))
    (hcons : isConsistent mem c1 = .ok (.consistent, c2, ev2)) :
    runIter mem c = .ok (.halt c2, ev1 ++ ev2) := by
  unfold runIter
  rw [hcl]
  simp only [bind, Except.bind]
  rw [hcons]

theorem runIter_growE_eq {mem : String → Bool} {c : Core} {c1 c2 c3 : Core}
    {ev1 ev2 ev3 : List Event} {ws1 ws2 : List String}
    (hcl : isClosed mem c = .ok (.closed, c1, ev1))
    (hc1 : isConsistent mem c1 = .ok (.notConsistent ws1, c2, ev2))
    (hc2 : isConsistent mem c2 = .ok (.notConsistent ws2, c3, ev3)) :
    runIter mem c = .ok (.again (createSuffixPowerSet
        { (updateTable c3 c3.suffixObj ws2).2 with
          suffixObj := (updateTable c3 c3.suffixObj ws2).1 }),
      ev1 ++ ev2 ++ ev3) := by
  unfold runIter
  rw [hcl]
  simp only [bind, Except.bind]
  rw [hc1]
  simp only [Except.bind]
  rw [hc2]

theorem runIter_cases {mem : String → Bool} {c : Core} {st : Step} {ev : List Event}
    (h : runIter mem c = .ok (st, ev)) :
    (∃ ws c1 ev1 c3 ev2, isClosed mem c = .ok (.notClosed ws, c1, ev1) ∧
      createFsObjects mem
          { (updateTable c1 c1.sObj ws).2 with sObj := (updateTable c1 c1.sObj ws).1 }
        = .ok (c3, ev2) ∧
      st = .again c3 ∧ ev = ev1 ++ ev2) ∨
    (∃ c1 ev1 c2 ev2, isClosed mem c = .ok (.closed, c1, ev1) ∧
      isConsistent mem c1 = .ok (.consistent, c2, ev2) ∧
      st = .halt c2 ∧ ev = ev1 ++ ev2) ∨
    (∃ c1 ev1 ws1 c2 ev2 ws2 c3 ev3, isClosed mem c = .ok (.closed, c1, ev1) ∧
      isConsistent mem c1 = .ok (.notConsistent ws1, c2, ev2) ∧
      isConsistent mem c2 = .ok (.notConsistent ws2, c3, ev3) ∧
      st = .again (createSuffixPowerSet
        { (updateTable c3 c3.suffixObj ws2).2 with
          suffixObj := (updateTable c3 c3.suffixObj ws2).1 }) ∧
      ev = ev1 ++ ev2 ++ ev3) ∨
    (∃ c1 ev1 ws1 c2 ev2 c3 ev3 c4 ev4, isClosed mem c = .ok (.closed, c1, ev1) ∧
      isConsistent mem c1 = .ok (.notConsistent ws1, c2, ev2) ∧
      isConsistent mem c2 = .ok (.consistent, c3, ev3) ∧
      isClosed mem c3 = .ok (.closed, c4, ev4) ∧
      st = .halt c4 ∧ ev = ev1 ++ ev2 ++ ev3 ++ ev4) ∨
    (∃ c1 ev1 ws1 c2 ev2 c3 ev3 ws4 c4 ev4, isClosed mem c = .ok (.closed, c1, ev1) ∧
      isConsistent mem c1 = .ok (.notConsistent ws1, c2, ev2) ∧
      isConsistent mem c2 = .ok (.consistent, c3, ev3) ∧
      isClosed mem c3 = .ok (.notClosed ws4, c4, ev4) ∧
      st = .again c4 ∧ ev = ev1 ++ ev2 ++ ev3 ++ ev4) := by
  unfold runIter at h
  simp only [bind, Except.bind] at h
  split at h
  · cases h
  · rename_i v heq1
    obtain ⟨r1, c1, ev1⟩ := v
    dsimp only at h
    split at h
    · rename_i ws
      split at h
      · cases h
      · rename_i v2 heq2
        obtain ⟨c3, ev2⟩ := v2
        dsimp only at h heq2
        simp only [Except.ok.injEq, Prod.mk.injEq] at h
        exact Or.inl ⟨ws, c1, ev1, c3, ev2, heq1, heq2, h.1.symm, h.2.symm⟩
    · split at h
      · cases h
      · rename_i v2 heq2
        obtain ⟨r2, c2, ev2⟩ := v2
        dsimp only at h heq2
        split at h
        · simp only [Except.ok.injEq, Prod.mk.injEq] at h
          exact Or.inr (Or.inl ⟨c1, ev1, c2, ev2, heq1, heq2, h.1.symm, h.2.symm⟩)
        · rename_i ws1
          split at h
          · cases h
          · rename_i v3 heq3
            obtain ⟨r3, c3, ev3⟩ := v3
            dsimp only at h heq3
            split at h
            · rename_i ws2
              simp only [Except.ok.injEq, Prod.mk.injEq] at h
              exact Or.inr (Or.inr (Or.inl
                ⟨c1, ev1, ws1, c2, ev2, ws2, c3, ev3, heq1, heq2, heq3,
                 h.1.symm, h.2.symm⟩))
            · split at h
              · cases h
              · rename_i v4 heq4
                obtain ⟨r4, c4, ev4⟩ := v4
                dsimp only at h heq4
                split at h
                · simp only [Except.ok.injEq, Prod.mk.injEq] at h
                  exact Or.inr (Or.inr (Or.inr (Or.inl
                    ⟨c1, ev1, ws1, c2, ev2, c3, ev3, c4, ev4, heq1, heq2, heq3, heq4,
                     h.1.symm, h.2.symm⟩)))
                · rename_i ws4
                  simp only [Except.ok.injEq, Prod.mk.injEq] at h
                  exact Or.inr (Or.inr (Or.inr (Or.inr
                    ⟨c1, ev1, ws1, c2, ev2, c3, ev3, ws4, c4, ev4, heq1, heq2, heq3, heq4,
                     h.1.symm, h.2.symm⟩)))

/-! Helper lemmas: every event a run emits is a membership query or a
predicate-check marker; equivalence queries are never issued. -/

theorem addPowerSetMorphism_events {mem : String → Bool} {c : Core} {obj : Obj}
    {c2 : Core} {ev : List Event} (h : addPowerSetMorphism mem c obj = .ok (c2, ev)) :
    ∀ e ∈ ev, ∃ w, e = .memQuery w := by
  unfold addPowerSetMorphism at h
  cases hpm : powerMapAux mem c.suffixObj.elems c.powObj.elems obj.elems with
  | ok mp =>
    rw [hpm] at h
    simp only [Except.ok.injEq, Prod.mk.injEq] at h
    rw [← h.2]
    intro e he
    obtain ⟨x, -, hx⟩ := List.mem_flatMap.mp he
    obtain ⟨w, -, hw⟩ := List.mem_map.mp hx
    exact ⟨x ++ w, hw.symm⟩
  | error e2 =>
    rw [hpm] at h
    cases h

theorem getOrCreateSToPow_events {mem : String → Bool} {c : Core} {m : Mor}
    {c2 : Core} {ev : List Event} (h : getOrCreateSToPow mem c = .ok (m, c2, ev)) :
    ∀ e ∈ ev, ∃ w, e = .memQuery w := by
  unfold getOrCreateSToPow at h
  by_cases h1 : (homSet c.store c.sObj c.powObj).length > 1
  · simp only [if_pos h1] at h
    cases h
  · simp only [if_neg h1] at h
    cases h2 : (homSet c.store c.sObj c.powObj).getLast? with
    | some m2 =>
      simp only [h2, Except.ok.injEq, Prod.mk.injEq] at h
      rw [← h.2.2]
      intro e he
      cases he
    | none =>
      simp only [h2] at h
      cases h3 : addPowerSetMorphism mem c c.sObj with
      | error e2 =>
        rw [h3] at h
        cases h
      | ok p =>
        obtain ⟨c3, ev3⟩ := p
        rw [h3] at h
        by_cases h4 : (homSet c3.store c3.sObj c3.powObj).length > 1
        · simp only [if_pos h4] at h
          cases h
        · simp only [if_neg h4] at h
          cases h5 : (homSet c3.store c3.sObj c3.powObj).getLast? with
          | some m5 =>
            simp only [h5, Except.ok.injEq, Prod.mk.injEq] at h
            rw [← h.2.2]
            exact addPowerSetMorphism_events h3
          | none =>
            simp only [h5] at h
            cases h

theorem getOrCreateFsToPow_events {mem : String → Bool} {c : Core} {m : Mor}
    {c2 : Core} {ev : List Event} (h : getOrCreateFsToPow mem c = .ok (m, c2, ev)) :
    ∀ e ∈ ev, ∃ w, e = .memQuery w := by
  unfold getOrCreateFsToPow at h
  by_cases h1 : (homSet c.store c.fsObj c.powObj).length > 1
  · simp only [if_pos h1] at h
    cases h
  · simp only [if_neg h1] at h
    cases h2 : (homSet c.store c.fsObj c.powObj).getLast? with
    | some m2 =>
      simp only [h2, Except.ok.injEq, Prod.mk.injEq] at h
      rw [← h.2.2]
      intro e he
      cases he
    | none =>
      simp only [h2] at h
      cases h3 : addPowerSetMorphism mem c c.fsObj with
      | error e2 =>
        rw [h3] at h
        cases h
      | ok p =>
        obtain ⟨c3, ev3⟩ := p
        rw [h3] at h
        by_cases h4 : (homSet c3.store c3.fsObj c3.powObj).length > 1
        · simp only [if_pos h4] at h
          cases h
        · simp only [if_neg h4] at h
          cases h5 : (homSet c3.store c3.fsObj c3.powObj).getLast? with
          | some m5 =>
            simp only [h5, Except.ok.injEq, Prod.mk.injEq] at h
            rw [← h.2.2]
            exact addPowerSetMorphism_events h3
          | none =>
            simp only [h5] at h
            cases h

theorem isClosed_events {mem : String → Bool} {c : Core} {r : ClosedRes}
    {c2 : Core} {ev : List Event} (h : isClosed mem c = .ok (r, c2, ev)) :
    ∀ e ∈ ev, e = .checkClosed ∨ ∃ w, e = .memQuery w := by
  unfold isClosed at h
  cases h1 : getOrCreateSToPow mem c with
  | error e2 =>
    rw [h1] at h
    simp only [bind, Except.bind] at h
    cases h
  | ok p1 =>
    obtain ⟨s2p, c1, ev1⟩ := p1
    rw [h1] at h
    simp only [bind, Except.bind] at h
    cases h2 : getOrCreateFsToPow mem c1 with
    | error e2 =>
      rw [h2] at h
      simp only [Except.bind] at h
      cases h
    | ok p2 =>
      obtain ⟨fs2p, c1b, ev2⟩ := p2
      rw [h2] at h
      simp only [Except.bind] at h
      have hgen : ∀ e ∈ Event.checkClosed :: (ev1 ++ ev2),
          e = Event.checkClosed ∨ ∃ w, e = Event.memQuery w := by
        intro e he
        rcases List.mem_cons.mp he with h5 | h5
        · exact Or.inl h5
        · rcases List.mem_append.mp h5 with h6 | h6
          · exact Or.inr (getOrCreateSToPow_events h1 e h6)
          · exact Or.inr (getOrCreateFsToPow_events h2 e h6)
      split at h
      · cases h
      · split at h
        · split at h
          · simp only [Except.ok.injEq, Prod.mk.injEq] at h
            rw [← h.2.2]
            exact hgen
          · split at h <;>
              (simp only [Except.ok.injEq, Prod.mk.injEq] at h
               rw [← h.2.2]
               exact hgen)
        · split at h <;>
            (simp only [Except.ok.injEq, Prod.mk.injEq] at h
             rw [← h.2.2]
             exact hgen)

theorem isConsistent_events {mem : String → Bool} {c : Core} {r : ConsRes}
    {c2 : Core} {ev : List Event} (h : isConsistent mem c = .ok (r, c2, ev)) :
    ∀ e ∈ ev, e = .checkConsistent ∨ ∃ w, e = .memQuery w := by
  unfold isConsistent at h
  cases h1 : getOrCreateSToPow mem c with
  | error e2 =>
    rw [h1] at h
    simp only [bind, Except.bind] at h
    cases h
  | ok p1 =>
    obtain ⟨s2p, c1, ev1⟩ := p1
    rw [h1] at h
    simp only [bind, Except.bind] at h
    cases h2 : getOrCreateFsToPow mem c1 with
    | error e2 =>
      rw [h2] at h
      simp only [Except.bind] at h
      cases h
    | ok p2 =>
      obtain ⟨fs2p, c1b, ev2⟩ := p2
      rw [h2] at h
      simp only [Except.bind] at h
      have hgen : ∀ e ∈ Event.checkConsistent :: (ev1 ++ ev2),
          e = Event.checkConsistent ∨ ∃ w, e = Event.memQuery w := by
        intro e he
        rcases List.mem_cons.mp he with h5 | h5
        · exact Or.inl h5
        · rcases List.mem_append.mp h5 with h6 | h6
          · exact Or.inr (getOrCreateSToPow_events h1 e h6)
          · exact Or.inr (getOrCreateFsToPow_events h2 e h6)
      split at h
      · cases h
      · split at h
        · cases h
        · split at h
          · cases h
          · split at h
            · split at h
              · cases h
              · simp only [Except.ok.injEq, Prod.mk.injEq] at h
                rw [← h.2.2]
                exact hgen
              · simp only [Except.ok.injEq, Prod.mk.injEq] at h
                rw [← h.2.2]
                exact hgen
            · simp only [Except.ok.injEq, Prod.mk.injEq] at h
              rw [← h.2.2]
              exact hgen

theorem createFsObjects_events {mem : String → Bool} {c c2 : Core} {ev : List Event}
    (h : createFsObjects mem c = .ok (c2, ev)) :
    ∀ e ∈ ev, ∃ w, e = .memQuery w := by
  unfold createFsObjects at h
  cases h1 : getOrCreateSToPow mem c with
  | error e2 =>
    rw [h1] at h
    simp only [bind, Except.bind] at h
    cases h
  | ok p1 =>
    obtain ⟨s2p, c1, ev1⟩ := p1
    rw [h1] at h
    simp only [bind, Except.bind] at h
    split at h
    · simp only [Except.ok.injEq, Prod.mk.injEq] at h
      rw [← h.2]
      exact getOrCreateSToPow_events h1
    · cases h

theorem runIter_events {mem : String → Bool} {c : Core} {st : Step} {ev : List Event}
    (h : runIter mem c = .ok (st, ev)) :
    ∀ e ∈ ev, e = .checkClosed ∨ e = .checkConsistent ∨ ∃ w, e = .memQuery w := by
  rcases runIter_cases h with
    ⟨ws, c1, ev1, c3, ev2, hcl, hfs, -, hev⟩ |
    ⟨c1, ev1, c2, ev2, hcl, hcons, -, hev⟩ |
    ⟨c1, ev1, ws1, c2, ev2, ws2, c3, ev3, hcl, hc1, hc2, -, hev⟩ |
    ⟨c1, ev1, ws1, c2, ev2, c3, ev3, c4, ev4, hcl, hc1, hc2, hcl2, -, hev⟩ |
    ⟨c1, ev1, ws1, c2, ev2, c3, ev3, ws4, c4, ev4, hcl, hc1, hc2, hcl2, -, hev⟩ <;>
    subst hev <;> intro e he
  · rcases List.mem_append.mp he with h5 | h5
    · rcases isClosed_events hcl e h5 with h6 | h6
      · exact Or.inl h6
      · exact Or.inr (Or.inr h6)
    · exact Or.inr (Or.inr (createFsObjects_events hfs e h5))
  · rcases List.mem_append.mp he with h5 | h5
    · rcases isClosed_events hcl e h5 with h6 | h6
      · exact Or.inl h6
      · exact Or.inr (Or.inr h6)
    · rcases isConsistent_events hcons e h5 with h6 | h6
      · exact Or.inr (Or.inl h6)
      · exact Or.inr (Or.inr h6)
  · rcases List.mem_append.mp he with h5 | h5
    · rcases List.mem_append.mp h5 with h7 | h7
      · rcases isClosed_events hcl e h7 with h6 | h6
        · exact Or.inl h6
        · exact Or.inr (Or.inr h6)
      · rcases isConsistent_events hc1 e h7 with h6 | h6
        · exact Or.inr (Or.inl h6)
        · exact Or.inr (Or.inr h6)
    · rcases isConsistent_events hc2 e h5 with h6 | h6
      · exact Or.inr (Or.inl h6)
      · exact Or.inr (Or.inr h6)
  · rcases List.mem_append.mp he with h5 | h5
    · rcases List.mem_append.mp h5 with h7 | h7
      · rcases List.mem_append.mp h7 with h8 | h8
        · rcases isClosed_events hcl e h8 with h6 | h6
          · exact Or.inl h6
          · exact Or.inr (Or.inr h6)
        · rcases isConsistent_events hc1 e h8 with h6 | h6
          · exact Or.inr (Or.inl h6)
          · exact Or.inr (Or.inr h6)
      · rcases isConsistent_events hc2 e h7 with h6 | h6
        · exact Or.inr (Or.inl h6)
        · exact Or.inr (Or.inr h6)
    · rcases isClosed_events hcl2 e h5 with h6 | h6
      · exact Or.inl h6
      · exact Or.inr (Or.inr h6)
  · rcases List.mem_append.mp he with h5 | h5
    · rcases List.mem_append.mp h5 with h7 | h7
      · rcases List.mem_append.mp h7 with h8 | h8
        · rcases isClosed_events hcl e h8 with h6 | h6
          · exact Or.inl h6
          · exact Or.inr (Or.inr h6)
        · rcases isConsistent_events hc1 e h8 with h6 | h6
          · exact Or.inr (Or.inl h6)
          · exact Or.inr (Or.inr h6)
      · rcases isConsistent_events hc2 e h7 with h6 | h6
        · exact Or.inr (Or.inl h6)
        · exact Or.inr (Or.inr h6)
    · rcases isClosed_events hcl2 e h5 with h6 | h6
      · exact Or.inl h6
      · exact Or.inr (Or.inr h6)

theorem runFuel_events {mem : String → Bool} :
    ∀ (n : Nat) (c : Core) (r : RunRes) (ev : List Event),
      runFuel mem n c = .ok (r, ev) →
      ∀ e ∈ ev, e = .checkClosed ∨ e = .checkConsistent ∨ ∃ w, e = .memQuery w := by
  intro n
  induction n with
  | zero =>
    intro c r ev h e he
    simp only [runFuel, Except.ok.injEq, Prod.mk.injEq] at h
    rw [← h.2] at he
    cases he
  | succ n ih =>
    intro c r ev h e he
    unfold runFuel at h
    cases h1 : runIter mem c with
    | error e2 =>
      rw [h1] at h
      simp only [bind, Except.bind] at h
      cases h
    | ok p1 =>
      obtain ⟨st, ev1⟩ := p1
      rw [h1] at h
      simp only [bind, Except.bind] at h
      cases st with
      | halt c2 =>
        dsimp only at h
        simp only [Except.ok.injEq, Prod.mk.injEq] at h
        rw [← h.2] at he
        exact runIter_events h1 e he
      | again c2 =>
        dsimp only at h
        cases h2 : runFuel mem n c2 with
        | error e2 =>
          rw [h2] at h
          simp only [Except.bind] at h
          cases h
        | ok p2 =>
          obtain ⟨r2, ev2⟩ := p2
          rw [h2] at h
          simp only [Except.bind, Except.ok.injEq, Prod.mk.injEq] at h
          rw [← h.2] at he
          rcases List.mem_append.mp he with h5 | h5
          · exact runIter_events h1 e h5
          · exact ih c2 r2 ev2 h2 e h5

theorem monicRev_alookup (m : Mor) (r : String) :
    alookup ((monicOf m).map.map (fun p => (p.2, p.1))) r =
      if r ∈ (hObj m).elems then some r else none := by
  have h : (monicOf m).map.map (fun p => (p.2, p.1)) =
      (hObj m).elems.map (fun r => (r, r)) := by
    simp only [monicOf, List.map_map]
    rfl
  rw [h, alookup_diag]

theorem hObj_honestS2p_elems (mem : String → Bool) (c : Core) :
    (hObj (honestS2p mem c)).elems =
      (c.sObj.elems.map (rowLabel mem c.suffixObj.elems)).dedup := by
  simp only [hObj, honestS2p, rowMap, List.map_map]
  rfl

theorem buildFsToH_diag {hs : List String} :
    ∀ {l mp : List (String × String)},
      buildFsToH (hs.map (fun r => (r, r))) l = .ok mp → mp = l := by
  intro l
  induction l with
  | nil =>
    intro mp h
    simp only [buildFsToH, Except.ok.injEq] at h
    exact h.symm
  | cons q rest ih =>
    obtain ⟨x, r⟩ := q
    intro mp h
    simp only [buildFsToH, alookup_diag] at h
    by_cases hr : r ∈ hs
    · rw [if_pos hr] at h
      cases hrec : buildFsToH (hs.map (fun r => (r, r))) rest with
      | error e =>
        rw [hrec] at h
        simp [Except.map] at h
      | ok t =>
        rw [hrec] at h
        simp only [Except.map, Except.ok.injEq] at h
        rw [← h, ih hrec]
    · rw [if_neg hr] at h
      cases h

theorem composeMaps_nil {l m2 : List (String × String)}
    (h : ∀ p ∈ l, alookup m2 p.2 = none) : composeMaps l m2 = [] := by
  unfold composeMaps
  rw [List.filterMap_eq_nil]
  intro p hp
  rw [h p hp]
  rfl

theorem runIter_isClosed_error {mem : String → Bool} {c : Core} {e : CalfError}
    (h : isClosed mem c = .error e) : runIter mem c = .error e := by
  unfold runIter
  rw [h]
  rfl

theorem runIter_isConsistent_error {mem : String → Bool} {c c1 : Core}
    {ev1 : List Event} {e : CalfError}
    (hcl : isClosed mem c = .ok (.closed, c1, ev1))
    (h : isConsistent mem c1 = .error e) : runIter mem c = .error e := by
  unfold runIter
  rw [hcl]
  simp only [bind, Except.bind]
  rw [h]

theorem runFuel_error_propagates {mem : String → Bool} {c : Core} {e : CalfError}
    (n : Nat) (h : runIter mem c = .error e) : runFuel mem (n + 1) c = .error e := by
  unfold runFuel
  rw [h]
  rfl

/-! Claim theorems. -/

/-- Claim C1, counterexample: with a cached FH → 2^E morphism in the store
(`scStale`), `is_consistent` reports Consistent although the composite
FS → FH → 2^E maps a to the all-false row while FS → 2^E maps a to the true
row — the commutation check that would detect this is computed and discarded.
The claim says the check never reports Consistent when the composite
disagrees; here it does. -/
theorem isConsistent_counterexample :
    isConsistent mem1 c1st = .ok (.consistent, c1st, [.checkConsistent]) ∧
    homSet c1st.store c1st.fhObj c1st.powObj = [scStale] ∧
    alookup (chainMap [scFsfh, scStale]) ("a") = some ("false") ∧
    alookup scFs2p.map ("a") = some ("true") ∧
    morphismCommute [scFsfh, scStale] [scFs2p] = .nonCommutative ["a"] := by
  refine ⟨?_, ?_, ?_, ?_, ?_⟩ <;> rfl

/-- Claim C2: the closedness check does not perform the comparison the claim
describes.  At this input a stale FS → H morphism is cached that disagrees
with FS → 2^E at a, so the claimed element-by-element verification of
FS → H → 2^E against FS → 2^E is non-commuting with witness a; but the code
passes the chains [FS → H, S → 2^E] and [S → H, H → 2^E] to the commutation
check (its own comment says it intends FS → H → 2^E vs FS → 2^E).  The first
chain does not compose — its composite mapping is empty — so the check
inspects no element of FS and `is_closed` reports Closed. -/
theorem isClosed_commutation_bug :
    isClosed mem1 c2st = .ok (.closed, c2st, [.checkClosed]) ∧
    homSet c2st.store c2st.fsObj (hObj scS2p) = [scStaleFsToH] ∧
    morphismCommute [scStaleFsToH, monicOf scS2p] [scFs2p] = .nonCommutative ["a"] ∧
    chainMap [scStaleFsToH, scS2p] = [] ∧
    morphismCommute [scStaleFsToH, scS2p] [epicOf scS2p, monicOf scS2p] = .commutative := by
  refine ⟨?_, ?_, ?_, ?_, ?_⟩ <;> rfl

/-- Claim C3, counterexample: at this input both a and b have rows with no
matching preimage in H under the monic half (both rows are true, H only
holds the false row), yet `is_closed` returns NotClosed carrying only the
single witness a — b is not carried, contradicting the claim that every such
element is carried as a witness. -/
theorem isClosed_witness_counterexample :
    isClosed mem3 c3st = .ok (.notClosed ["a"], c3st, [.checkClosed]) ∧
    alookup scFs2pTwoBad.map ("b") = some ("true") ∧
    alookup ((monicOf scS2p).map.map (fun p => (p.2, p.1))) ("true") = none ∧
    ("b") ∉ (["a"] : List String) := by
  refine ⟨?_, ?_, ?_, ?_⟩
  · rfl
  · rfl
  · rfl
  · decide

/-- Claim C8: starting the engine with S = E = {ε}, alphabet {a, b} and an
oracle accepting only the word a, the first closedness check reports
NotClosed with witness a, and the subsequent table update grows S to
{ε, a} (shown both for the raw `update_table` call and for the full loop
iteration). -/
theorem growth_witness_scenario :
    (calfNew mem1 ["a", "b"]).map (fun p => (p.1.sObj.elems, p.1.suffixObj.elems))
      = .ok ([""], [""]) ∧
    ((calfNew mem1 ["a", "b"]).bind (fun p => isClosed mem1 p.1)).map (fun q => q.1)
      = .ok (.notClosed ["a"]) ∧
    ((calfNew mem1 ["a", "b"]).bind (fun p => isClosed mem1 p.1)).map
        (fun q => (updateTable q.2.1 q.2.1.sObj ["a"]).1.elems) = .ok (["", "a"]) ∧
    ((calfNew mem1 ["a", "b"]).bind (fun p => runIter mem1 p.1)).map
        (fun q => match q.1 with | .again c2 => some c2.sObj.elems | .halt _ => none)
      = .ok (some (["", "a"])) := by
  refine ⟨?_, ?_, ?_, ?_⟩ <;> rfl

/-- Claim C9, counterexample: at this honest closed-but-inconsistent state the
consistency conflict witness ba already belongs to E = {ε, ba}, so the
NotConsistent growth step unions it into E without increasing the element
count: the iteration completes as a growth step, yet |E| stays 2. -/
theorem suffix_growth_stall_counterexample :
    (isClosed mem9 c9st).map (fun q => q.1) = .ok .closed ∧
    ((isClosed mem9 c9st).bind (fun q => isConsistent mem9 q.2.1)).map (fun q => q.1)
      = .ok (.notConsistent ["ba"]) ∧
    c9st.suffixObj.elems = ["", "ba"] ∧
    ("ba") ∈ c9st.suffixObj.elems ∧
    (runIter mem9 c9st).map (fun q =>
        match q.1 with
        | .again c2 => some (c2.suffixObj.elems, c2.sObj.elems)
        | .halt _ => none)
      = .ok (some ((["", "ba"]), ["", "b", "ba"])) ∧
    c9st.suffixObj.elems.length = 2 := by
  refine ⟨?_, ?_, ?_, ?_, ?_, ?_⟩
  · rfl
  · rfl
  · rfl
  · decide
  · rfl
  · rfl

/-- Claim C6: `add_power_set_morphism` maps every element x of its source
object to the power-set element labelled by the boolean vector
[membership(x·e) for e in E] in the fixed order of E, issuing exactly one
membership query per (x, e) concatenation; when some computed row label has
no element in 2^E, the call fails with a fatal error instead of
recovering. -/
theorem addPowerSetMorphism_contract (mem : String → Bool) (c : Core) (obj : Obj) :
    ((∀ x ∈ obj.elems, rowLabel mem c.suffixObj.elems x ∈ c.powObj.elems) →
      addPowerSetMorphism mem c obj =
        .ok ({ c with store := c.store ++
                [⟨obj, c.powObj, rowMap mem c.suffixObj.elems obj.elems⟩] },
             obj.elems.flatMap (rowQueries c.suffixObj.elems))) ∧
    ((∃ x ∈ obj.elems, rowLabel mem c.suffixObj.elems x ∉ c.powObj.elems) →
      addPowerSetMorphism mem c obj = .error .unknownError) := by
  constructor
  · intro h
    unfold addPowerSetMorphism
    rw [powerMapAux_ok_of_all mem _ _ _ h]
  · intro h
    unfold addPowerSetMorphism
    rw [powerMapAux_error_of_missing mem _ _ _ h]

/-- Claim C6, witness: concrete materialization for the only-a oracle, and the
fatal failure on a stale power-set object lacking the true row. -/
theorem addPowerSetMorphism_contract_witness :
    addPowerSetMorphism mem1 c6st scFS =
      .ok ({ c6st with store := [⟨scFS, scPow, [("a", "true"), ("b", "false")]⟩] },
           [.memQuery ("a"), .memQuery ("b")]) ∧
    addPowerSetMorphism mem1 c6bad scFS = .error .unknownError := by
  constructor
  · exact (addPowerSetMorphism_contract mem1 c6st scFS).1 (by decide)
  · exact (addPowerSetMorphism_contract mem1 c6bad scFS).2 (by decide)

/-- Claim C7: `create_suffix_power_set` builds a power-set object with exactly
2^|E| elements whose labels are pairwise distinct, one per boolean vector of
length |E| (every such vector occurs); the object is brand new — it carries
the fresh identity, is registered, and differs from the previous power-set
object. -/
theorem createSuffixPowerSet_contract (c : Core) :
    (createSuffixPowerSet c).powObj.elems.length = 2 ^ c.suffixObj.elems.length ∧
    (createSuffixPowerSet c).powObj.elems.Nodup ∧
    (∀ bs : List Bool, bs.length = c.suffixObj.elems.length →
      boolWord bs ∈ (createSuffixPowerSet c).powObj.elems) ∧
    (createSuffixPowerSet c).powObj.oid = .base c.freshId ∧
    (createSuffixPowerSet c).powObj ∈ (createSuffixPowerSet c).objects ∧
    (createSuffixPowerSet c).freshId = c.freshId + 1 ∧
    (c.powObj.oid ≠ .base c.freshId → (createSuffixPowerSet c).powObj ≠ c.powObj) := by
  refine ⟨?_, ?_, ?_, rfl, ?_, rfl, ?_⟩
  · simp [createSuffixPowerSet]
  · simp only [createSuffixPowerSet]
    exact List.Nodup.map_on
      (fun i hi j hj hij => psLabel_inj (List.mem_range.mp hi) (List.mem_range.mp hj) hij)
      (List.nodup_range _)
  · intro bs hlen
    simp only [createSuffixPowerSet]
    rw [List.mem_map]
    refine ⟨natOfBits bs, List.mem_range.mpr ?_, ?_⟩
    · rw [← hlen]
      exact natOfBits_lt bs
    · rw [psLabel_eq_boolWord]
      congr 1
      rw [← hlen]
      exact range_map_testBit_natOfBits bs
  · simp [createSuffixPowerSet]
  · intro hne heq
    exact hne (by rw [← heq]; rfl)

/-- Claim C7, witness: for the {ε}-suffix state the rebuilt power-set object
has the two boolean rows, is distinct from the stale object, and every
length-1 boolean vector occurs. -/
theorem createSuffixPowerSet_contract_witness :
    (createSuffixPowerSet c1st).powObj.elems.length = 2 ^ 1 ∧
    boolWord [true] ∈ (createSuffixPowerSet c1st).powObj.elems ∧
    (createSuffixPowerSet c1st).powObj ≠ c1st.powObj := by
  have h := createSuffixPowerSet_contract c1st
  exact ⟨h.1, h.2.2.1 [true] (by decide), h.2.2.2.2.2.2 (by decide)⟩

/-- Claim C5: a hom-set holding more than one morphism between any of the
protocol object pairs — S and 2^E, FS and 2^E, FS and H, FS and FH, FH and
2^E — makes the engine return the matching fatal error; such errors are not
retried and propagate through the loop body and the loop to the caller of
`run`. -/
theorem multiplicity_errors_fatal (mem : String → Bool) (c : Core) :
    ((homSet c.store c.sObj c.powObj).length > 1 →
      getOrCreateSToPow mem c = .error .multipleMorphismsFromSuffixToPowerSet ∧
      isClosed mem c = .error .multipleMorphismsFromSuffixToPowerSet ∧
      isConsistent mem c = .error .multipleMorphismsFromSuffixToPowerSet ∧
      runIter mem c = .error .multipleMorphismsFromSuffixToPowerSet) ∧
    (∀ m1, homSet c.store c.sObj c.powObj = [m1] →
      (homSet c.store c.fsObj c.powObj).length > 1 →
      getOrCreateFsToPow mem c = .error .multipleMorphismsFromFSToPowerSet ∧
      isClosed mem c = .error .multipleMorphismsFromFSToPowerSet) ∧
    (∀ m1 m2, homSet c.store c.sObj c.powObj = [m1] →
      homSet c.store c.fsObj c.powObj = [m2] →
      (homSet c.store c.fsObj (hObj m1)).length > 1 →
      isClosed mem c = .error .multipleMorphismsFromFSToH) ∧
    (∀ m1 m2, homSet c.store c.sObj c.powObj = [m1] →
      homSet c.store c.fsObj c.powObj = [m2] →
      (homSet c.store c.fsObj c.fhObj).length > 1 →
      isConsistent mem c = .error .multipleMorphismsFromFStoFH) ∧
    (∀ m1 m2 m3, homSet c.store c.sObj c.powObj = [m1] →
      homSet c.store c.fsObj c.powObj = [m2] →
      homSet c.store c.fsObj c.fhObj = [m3] →
      (homSet c.store c.fhObj c.powObj).length > 1 →
      isConsistent mem c = .error .multipleMorphismsFromFHtoPowerset) ∧
    (∀ e, isClosed mem c = .error e → runIter mem c = .error e) ∧
    (∀ e c1 ev1, isClosed mem c = .ok (.closed, c1, ev1) →
      isConsistent mem c1 = .error e → runIter mem c = .error e) ∧
    (∀ e n, runIter mem c = .error e → runFuel mem (n + 1) c = .error e) := by
  refine ⟨?_, ?_, ?_, ?_, ?_, ?_, ?_, ?_⟩
  · intro h
    have hg : getOrCreateSToPow mem c = .error .multipleMorphismsFromSuffixToPowerSet := by
      simp only [getOrCreateSToPow]
      rw [if_pos h]
    have hcl : isClosed mem c = .error .multipleMorphismsFromSuffixToPowerSet := by
      unfold isClosed
      rw [hg]
      rfl
    refine ⟨hg, hcl, ?_, runIter_isClosed_error hcl⟩
    unfold isConsistent
    rw [hg]
    rfl
  · intro m1 h1 h
    have hg : getOrCreateFsToPow mem c = .error .multipleMorphismsFromFSToPowerSet := by
      simp only [getOrCreateFsToPow]
      rw [if_pos h]
    refine ⟨hg, ?_⟩
    unfold isClosed
    rw [getOrCreateSToPow_cached h1]
    simp only [bind, Except.bind]
    rw [hg]
  · intro m1 m2 h1 h2 h
    unfold isClosed
    rw [getOrCreateSToPow_cached h1]
    simp only [bind, Except.bind]
    rw [getOrCreateFsToPow_cached h2]
    simp only [Except.bind, morphismFactors, epicOf]
    rw [if_pos h]
  · intro m1 m2 h1 h2 h
    unfold isConsistent
    rw [getOrCreateSToPow_cached h1]
    simp only [bind, Except.bind]
    rw [getOrCreateFsToPow_cached h2]
    simp only [Except.bind]
    rw [if_pos h]
  · intro m1 m2 m3 h1 h2 h3 h
    unfold isConsistent
    rw [getOrCreateSToPow_cached h1]
    simp only [bind, Except.bind]
    rw [getOrCreateFsToPow_cached h2]
    simp only [Except.bind]
    rw [h3]
    rw [if_neg (by simp)]
    simp only [List.getLast?_singleton]
    rw [if_pos h]
  · intro e h
    exact runIter_isClosed_error h
  · intro e c1 ev1 hcl h
    exact runIter_isConsistent_error hcl h
  · intro e n h
    exact runFuel_error_propagates n h

/-- Claim C5, witness: a duplicated S → 2^E morphism aborts the loop body and
the loop; a duplicated FH → 2^E morphism aborts the consistency check. -/
theorem multiplicity_errors_fatal_witness :
    runIter mem1 c5st = .error .multipleMorphismsFromSuffixToPowerSet ∧
    isConsistent mem1 c5stFH = .error .multipleMorphismsFromFHtoPowerset ∧
    runFuel mem1 3 c5st = .error .multipleMorphismsFromSuffixToPowerSet := by
  have h1 := (multiplicity_errors_fatal mem1 c5st).1 (by decide)
  have h2 := (multiplicity_errors_fatal mem1 c5stFH).2.2.2.2.1 scS2p scFs2p scFsfh
    rfl rfl rfl (by decide)
  have h3 := (multiplicity_errors_fatal mem1 c5st).2.2.2.2.2.2.2
    .multipleMorphismsFromSuffixToPowerSet 2 h1.2.2.2
  exact ⟨h1.2.2.2, h2, h3⟩

/-- Claim C1 (amended): `is_consistent` reports NotConsistent exactly when,
while freshly building the induced mapping FH → 2^E, two source elements of
FS fall in the same FH class but disagree on their target row; the result
carries a single conflicting source element (one of the pair), not both.
When a cached FH → 2^E morphism already exists, the construction is skipped,
the final commutation check is computed but discarded, and Consistent is
reported unconditionally — even when the composite FS → FH → 2^E disagrees
with FS → 2^E. -/
theorem isConsistent_conflict_characterization (mem : String → Bool) (c : Core)
    (s2p fs2p fsfh : Mor)
    (h1 : homSet c.store c.sObj c.powObj = [s2p])
    (h2 : homSet c.store c.fsObj c.powObj = [fs2p])
    (h3 : homSet c.store c.fsObj c.fhObj = [fsfh])
    (htot : ∀ p ∈ fs2p.map, (alookup fsfh.map p.1).isSome) :
    (∀ fhp, homSet c.store c.fhObj c.powObj = [fhp] →
      isConsistent mem c = .ok (.consistent, c, [.checkConsistent])) ∧
    (homSet c.store c.fhObj c.powObj = [] →
      (((∃ ws c2 ev, isConsistent mem c = .ok (.notConsistent ws, c2, ev)) ↔
        fhCollision fsfh.map fs2p.map) ∧
      (∀ ws c2 ev, isConsistent mem c = .ok (.notConsistent ws, c2, ev) →
        ∃ x r x1 r1 fh, ws = [x] ∧ (x, r) ∈ fs2p.map ∧ (x1, r1) ∈ fs2p.map ∧
          alookup fsfh.map x = some fh ∧ alookup fsfh.map x1 = some fh ∧ r1 ≠ r))) := by
  constructor
  · intro fhp h4
    exact isConsistent_cached h1 h2 h3 h4
  · intro h4
    constructor
    · constructor
      · rintro ⟨ws, c2, ev, hres⟩
        rw [isConsistent_fresh h1 h2 h3 h4] at hres
        cases hb : buildFhToPow fsfh.map fs2p.map [] with
        | invalid =>
          simp only [hb] at hres
          cases hres
        | built mp =>
          simp only [hb] at hres
          simp at hres
        | conflict ws2 =>
          simp only [hb] at hres
          obtain ⟨x, r, x1, r1, fh, hws, hxr, hx1r1, hfx, hfx1, hne⟩ :=
            buildFhToPow_conflict_origin fs2p.map fs2p.map [] ws2 hb
              (by intro q hq; cases hq) (fun p hp => hp)
          exact ⟨x1, r1, x, r, fh, hx1r1, hxr, hfx1, hfx, hne⟩
      · intro hcol
        obtain ⟨ws, hws⟩ := buildFhToPow_conflict_of_collision htot hcol
        refine ⟨ws, c, [.checkConsistent], ?_⟩
        rw [isConsistent_fresh h1 h2 h3 h4, hws]
    · intro ws c2 ev hres
      rw [isConsistent_fresh h1 h2 h3 h4] at hres
      cases hb : buildFhToPow fsfh.map fs2p.map [] with
      | invalid =>
        simp only [hb] at hres
        cases hres
      | built mp =>
        simp only [hb] at hres
        simp at hres
      | conflict ws2 =>
        simp only [hb] at hres
        simp only [Except.ok.injEq, Prod.mk.injEq, ConsRes.notConsistent.injEq] at hres
        obtain ⟨x, r, x1, r1, fh, hws2, hxr, hx1r1, hfx, hfx1, hne⟩ :=
          buildFhToPow_conflict_origin fs2p.map fs2p.map [] ws2 hb
            (by intro q hq; cases hq) (fun p hp => hp)
        refine ⟨x, r, x1, r1, fh, ?_, hxr, hx1r1, hfx, hfx1, hne⟩
        rw [← hres.1, hws2]

/-- Claim C1, witness: the cached branch reports Consistent at the
counterexample state, and the fresh branch detects the concrete collision of
the stalled-growth scenario. -/
theorem isConsistent_conflict_characterization_witness :
    isConsistent mem1 c1st = .ok (.consistent, c1st, [.checkConsistent]) ∧
    (∃ ws c2 ev, isConsistent mem9 c9st = .ok (.notConsistent ws, c2, ev)) := by
  constructor
  · exact (isConsistent_conflict_characterization mem1 c1st scS2p scFs2p scFsfh
      rfl rfl rfl (by decide)).1 scStale rfl
  · exact ((isConsistent_conflict_characterization mem9 c9st c9s2p c9fs2p c9fsfh
      rfl rfl rfl (by decide)).2 rfl).1.mpr
      ⟨("a"), ("falsefalse"), ("ba"), ("falsetrue"), ("falsefalsea"),
       by decide, by decide, by decide, by decide, by decide⟩

/-- Claim C3 (amended): on a state with honest row morphisms and no cached
FS → H morphism, if some element of FS has a row with no matching preimage
in H under the monic half, `is_closed` returns NotClosed carrying one such
element as its single witness (the first in iteration order, not every such
element); and whenever this closedness check passes, every element sa of
S×A has some prefix in S with an identical observation row, i.e.
membership(sa·e) = membership(s2·e) for every e in E. -/
theorem isClosed_missing_row_characterization (mem : String → Bool) (c : Core)
    (h1 : homSet c.store c.sObj c.powObj = [honestS2p mem c])
    (h2 : homSet c.store c.fsObj c.powObj = [honestFs2p mem c])
    (hH : homSet c.store c.fsObj (hObj (honestS2p mem c)) = []) :
    ((∃ x ∈ c.fsObj.elems,
        rowLabel mem c.suffixObj.elems x ∉ (hObj (honestS2p mem c)).elems) →
      ∃ w c2 ev, isClosed mem c = .ok (.notClosed [w], c2, ev) ∧
        w ∈ c.fsObj.elems ∧
        rowLabel mem c.suffixObj.elems w ∉ (hObj (honestS2p mem c)).elems) ∧
    (∀ c2 ev, isClosed mem c = .ok (.closed, c2, ev) →
      ∀ sa ∈ c.fsObj.elems, ∃ s2 ∈ c.sObj.elems,
        ∀ e ∈ c.suffixObj.elems, mem (sa ++ e) = mem (s2 ++ e)) := by
  constructor
  · rintro ⟨x, hx, hbad⟩
    have hpair : (x, rowLabel mem c.suffixObj.elems x) ∈ (honestFs2p mem c).map :=
      List.mem_map.mpr ⟨x, hx, rfl⟩
    have hnone : alookup ((monicOf (honestS2p mem c)).map.map (fun p => (p.2, p.1)))
        (rowLabel mem c.suffixObj.elems x) = none := by
      rw [monicRev_alookup]
      exact if_neg hbad
    obtain ⟨w, r, herr, hmem, hwnone⟩ :=
      buildFsToH_error_of_missing ⟨_, hpair, hnone⟩
    obtain ⟨y, hy, hyeq⟩ := List.mem_map.mp hmem
    have hy1 : y = w := congrArg Prod.fst hyeq
    have hy2 : rowLabel mem c.suffixObj.elems y = r := congrArg Prod.snd hyeq
    subst hy1
    refine ⟨y, c, [.checkClosed], isClosed_construction_error mem h1 h2 hH herr, hy, ?_⟩
    rw [monicRev_alookup] at hwnone
    by_cases hin : r ∈ (hObj (honestS2p mem c)).elems
    · rw [if_pos hin] at hwnone
      cases hwnone
    · rw [hy2]
      exact hin
  · intro c2 ev hcl sa hsa
    cases hb : buildFsToH ((monicOf (honestS2p mem c)).map.map (fun p => (p.2, p.1)))
        (honestFs2p mem c).map with
    | error ws =>
      rw [isClosed_construction_error mem h1 h2 hH hb] at hcl
      simp at hcl
    | ok mp =>
      have hpair : (sa, rowLabel mem c.suffixObj.elems sa) ∈ (honestFs2p mem c).map :=
        List.mem_map.mpr ⟨sa, hsa, rfl⟩
      obtain ⟨hh, hhl⟩ := buildFsToH_ok_forall hb _ hpair
      rw [monicRev_alookup] at hhl
      by_cases hin : rowLabel mem c.suffixObj.elems sa ∈ (hObj (honestS2p mem c)).elems
      · rw [hObj_honestS2p_elems, List.mem_dedup] at hin
        obtain ⟨s2, hs2, hs2eq⟩ := List.mem_map.mp hin
        exact ⟨s2, hs2, fun e he => (rowLabel_pointwise mem _ hs2eq e he).symm⟩
      · rw [if_neg hin] at hhl
        cases hhl

/-- Claim C3, witness: at the two-unmatched-rows state the amended law yields
the single witness a. -/
theorem isClosed_missing_row_characterization_witness :
    ∃ w c2 ev, isClosed mem3 c3st = .ok (.notClosed [w], c2, ev) ∧
      w ∈ c3st.fsObj.elems ∧
      rowLabel mem3 c3st.suffixObj.elems w ∉ (hObj (honestS2p mem3 c3st)).elems := by
  exact (isClosed_missing_row_characterization mem3 c3st rfl rfl rfl).1
    ⟨("a"), by decide, by decide⟩

/-- Claim C4: the refinement loop obeys the transition policy.  (A) When the
closedness check fails, the iteration grows S by the witnesses, rebuilds
S×A, leaves E and 2^E untouched, continues (restarting at the closedness
check), and never enters the consistency check in that pass.  (B) When
NotConsistent is observed (closedness having passed), the iteration grows E
by the conflict witnesses, rebuilds 2^E as a fresh object, leaves S
untouched and continues, looping back to the closedness check.  (C) The
iteration halts — handing over to hypothesis extraction — only when a
closedness check and a consistency check both succeed within the same pass,
with S and E unchanged throughout the pass. -/
theorem run_loop_transition_policy (mem : String → Bool) (c : Core) :
    (∀ ws c1 ev1 st ev, isClosed mem c = .ok (.notClosed ws, c1, ev1) →
      runIter mem c = .ok (st, ev) →
      ∃ c3, st = .again c3 ∧
        c3.sObj.elems = c.sObj.elems ++ ws.dedup.filter (fun w => decide (w ∉ c.sObj.elems)) ∧
        c3.suffixObj = c.suffixObj ∧ c3.powObj = c.powObj ∧
        c3.fsObj.elems = productElems c3.sObj c.alphabets ∧
        Event.checkConsistent ∉ ev) ∧
    (∀ c1 ev1 ws1 c2 ev2 ws2 c3 ev3,
      isClosed mem c = .ok (.closed, c1, ev1) →
      isConsistent mem c1 = .ok (.notConsistent ws1, c2, ev2) →
      isConsistent mem c2 = .ok (.notConsistent ws2, c3, ev3) →
      ∃ c5, runIter mem c = .ok (.again c5, ev1 ++ ev2 ++ ev3) ∧
        c5.sObj = c.sObj ∧
        c5.suffixObj.elems =
          c.suffixObj.elems ++ ws2.dedup.filter (fun w => decide (w ∉ c.suffixObj.elems)) ∧
        c5.powObj.oid = .base (c.freshId + 1) ∧
        c5.powObj.elems = (List.range (2 ^ c5.suffixObj.elems.length)).map
          (psLabel c5.suffixObj.elems.length)) ∧
    (∀ ch ev, runIter mem c = .ok (.halt ch, ev) →
      (∃ c1 ev1 ev2, isClosed mem c = .ok (.closed, c1, ev1) ∧
        isConsistent mem c1 = .ok (.consistent, ch, ev2) ∧
        c1.sObj = c.sObj ∧ c1.suffixObj = c.suffixObj ∧
        ch.sObj = c.sObj ∧ ch.suffixObj = c.suffixObj ∧ ch.powObj = c.powObj) ∨
      (∃ c1 ev1 ws1 c2 ev2 c3 ev3 ev4, isClosed mem c = .ok (.closed, c1, ev1) ∧
        isConsistent mem c1 = .ok (.notConsistent ws1, c2, ev2) ∧
        isConsistent mem c2 = .ok (.consistent, c3, ev3) ∧
        isClosed mem c3 = .ok (.closed, ch, ev4) ∧
        ch.sObj = c.sObj ∧ ch.suffixObj = c.suffixObj ∧ ch.powObj = c.powObj)) := by
  refine ⟨?_, ?_, ?_⟩
  · intro ws c1 ev1 st ev hcl hri
    rcases runIter_cases hri with
      ⟨ws2, c1b, ev1b, c3, ev2, hcl2, hfs, hst, hev⟩ |
      ⟨c1b, ev1b, c2, ev2, hcl2, -, -, -⟩ |
      ⟨c1b, ev1b, ws1, c2, ev2, ws3, c3, ev3, hcl2, -, -, -, -⟩ |
      ⟨c1b, ev1b, ws1, c2, ev2, c3, ev3, c4, ev4, hcl2, -, -, -, -, -⟩ |
      ⟨c1b, ev1b, ws1, c2, ev2, c3, ev3, ws4, c4, ev4, hcl2, -, -, -, -, -⟩
    · rw [hcl] at hcl2
      simp only [Except.ok.injEq, Prod.mk.injEq, ClosedRes.notClosed.injEq] at hcl2
      obtain ⟨hws, hc1, hev1⟩ := hcl2
      subst hws
      subst hc1
      subst hev1
      have hfr1 := storeExt_fields (isClosed_storeExt hcl)
      have hfr2 := createFsObjects_frame hfs
      refine ⟨c3, hst, ?_, ?_, ?_, ?_, ?_⟩
      · rw [hfr2.1]
        show (updateTable c1 c1.sObj ws).1.elems = _
        rw [updateTable_elems, hfr1.1]
      · rw [hfr2.2.1]
        exact hfr1.2.2.2.1
      · rw [hfr2.2.2.1]
        exact hfr1.2.2.2.2.2.1
      · rw [hfr2.2.2.2.2, ← hfr2.1]
        show productElems c3.sObj c1.alphabets = _
        rw [hfr1.2.2.2.2.1]
      · subst hev
        intro hmemb
        rcases List.mem_append.mp hmemb with h5 | h5
        · rcases isClosed_events hcl _ h5 with h6 | ⟨w, h6⟩ <;> cases h6
        · obtain ⟨w, h6⟩ := createFsObjects_events hfs _ h5
          cases h6
    · rw [hcl] at hcl2
      simp at hcl2
    · rw [hcl] at hcl2
      simp at hcl2
    · rw [hcl] at hcl2
      simp at hcl2
    · rw [hcl] at hcl2
      simp at hcl2
  · intro c1 ev1 ws1 c2 ev2 ws2 c3 ev3 hcl hc1 hc2
    have heq := runIter_growE_eq hcl hc1 hc2
    have hf1 := storeExt_fields (isClosed_storeExt hcl)
    have hf2 := storeExt_fields (isConsistent_storeExt hc1)
    have hf3 := storeExt_fields (isConsistent_storeExt hc2)
    have hsuf : c3.suffixObj = c.suffixObj :=
      (hf3.2.2.2.1.trans hf2.2.2.2.1).trans hf1.2.2.2.1
    have hfresh : c3.freshId = c.freshId :=
      (hf3.2.2.2.2.2.2.2.trans hf2.2.2.2.2.2.2.2).trans hf1.2.2.2.2.2.2.2
    refine ⟨_, heq, ?_, ?_, ?_, rfl⟩
    · exact (hf3.1.trans hf2.1).trans hf1.1
    · show (updateTable c3 c3.suffixObj ws2).1.elems = _
      rw [updateTable_elems, hsuf]
    · show OId.base ((updateTable c3 c3.suffixObj ws2).2.freshId) = _
      show OId.base (c3.freshId + 1) = _
      rw [hfresh]
  · intro ch ev hri
    rcases runIter_cases hri with
      ⟨ws2, c1b, ev1b, c3, ev2, -, -, hst, -⟩ |
      ⟨c1b, ev1b, c2, ev2, hcl2, hcons, hst, -⟩ |
      ⟨c1b, ev1b, ws1, c2, ev2, ws3, c3, ev3, -, -, -, hst, -⟩ |
      ⟨c1b, ev1b, ws1, c2, ev2, c3, ev3, c4, ev4, hcl2, hc1, hc2, hcl3, hst, -⟩ |
      ⟨c1b, ev1b, ws1, c2, ev2, c3, ev3, ws4, c4, ev4, -, -, -, -, hst, -⟩
    · cases hst
    · obtain rfl : ch = c2 := by cases hst; rfl
      have hf1 := storeExt_fields (isClosed_storeExt hcl2)
      have hf2 := storeExt_fields (isConsistent_storeExt hcons)
      exact Or.inl ⟨c1b, ev1b, ev2, hcl2, hcons, hf1.1, hf1.2.2.2.1,
        hf2.1.trans hf1.1, hf2.2.2.2.1.trans hf1.2.2.2.1,
        hf2.2.2.2.2.2.1.trans hf1.2.2.2.2.2.1⟩
    · cases hst
    · obtain rfl : ch = c4 := by cases hst; rfl
      have hf1 := storeExt_fields (isClosed_storeExt hcl2)
      have hf2 := storeExt_fields (isConsistent_storeExt hc1)
      have hf3 := storeExt_fields (isConsistent_storeExt hc2)
      have hf4 := storeExt_fields (isClosed_storeExt hcl3)
      exact Or.inr ⟨c1b, ev1b, ws1, c2, ev2, c3, ev3, ev4, hcl2, hc1, hc2, hcl3,
        ((hf4.1.trans hf3.1).trans hf2.1).trans hf1.1,
        ((hf4.2.2.2.1.trans hf3.2.2.2.1).trans hf2.2.2.2.1).trans hf1.2.2.2.1,
        ((hf4.2.2.2.2.2.1.trans hf3.2.2.2.2.2.1).trans hf2.2.2.2.2.2.1).trans
          hf1.2.2.2.2.2.1⟩
    · cases hst

/-- Claim C4, witness: the NotClosed arm at the two-unmatched-rows state, the
E-growth arm at the stalled-growth state, and a halting pass for the
empty-language oracle. -/
theorem run_loop_transition_policy_witness :
    (∃ st ev, runIter mem3 c3st = .ok (st, ev) ∧
      ∃ c3, st = .again c3 ∧
        c3.sObj.elems = c3st.sObj.elems ++
          (["a"].dedup.filter (fun w => decide (w ∉ c3st.sObj.elems))) ∧
        c3.suffixObj = c3st.suffixObj ∧ c3.powObj = c3st.powObj ∧
        c3.fsObj.elems = productElems c3.sObj c3st.alphabets ∧
        Event.checkConsistent ∉ ev) ∧
    (∃ c5, runIter mem9 c9st = .ok (.again c5, ([.checkClosed] ++ [.checkConsistent])
        ++ [.checkConsistent]) ∧
      c5.sObj = c9st.sObj ∧
      c5.suffixObj.elems = c9st.suffixObj.elems ++
        (["ba"].dedup.filter (fun w => decide (w ∉ c9st.suffixObj.elems))) ∧
      c5.powObj.oid = .base (c9st.freshId + 1) ∧
      c5.powObj.elems = (List.range (2 ^ c5.suffixObj.elems.length)).map
        (psLabel c5.suffixObj.elems.length)) ∧
    (∃ ch ev, runIter memFalse cHaltSt = .ok (.halt ch, ev) ∧
      ch.sObj = cHaltSt.sObj ∧ ch.suffixObj = cHaltSt.suffixObj) := by
  refine ⟨?_, ?_, ?_⟩
  · have h := (run_loop_transition_policy mem3 c3st).1 ["a"] _ _ _ _ rfl rfl
    exact ⟨_, _, rfl, h⟩
  · exact (run_loop_transition_policy mem9 c9st).2.1 _ _ _ _ _ _ _ _ rfl rfl rfl
  · have h := (run_loop_transition_policy memFalse cHaltSt).2.2 _ _ rfl
    rcases h with ⟨c1, ev1, ev2, -, -, -, -, hs, he, -⟩ | ⟨c1, ev1, ws1, c2, ev2, c3, ev3, ev4, -, -, -, -, hs, he, -⟩
    · exact ⟨_, _, rfl, hs, he⟩
    · exact ⟨_, _, rfl, hs, he⟩

/-- Claim C9 (amended): across a loop iteration the element counts of S and E
never decrease (a halting iteration leaves both objects unchanged), and a
NotClosed growth step on an honest state strictly increases |S| by at least
one; a NotConsistent growth step unions the conflict witnesses into E and
therefore strictly increases |E| only when some witness is not already an
element of E — it can leave the count unchanged. -/
theorem growth_monotonicity (mem : String → Bool) (c : Core) :
    (∀ c2 ev, runIter mem c = .ok (.again c2, ev) →
      c.sObj.elems.length ≤ c2.sObj.elems.length ∧
      c.suffixObj.elems.length ≤ c2.suffixObj.elems.length) ∧
    (∀ c2 ev, runIter mem c = .ok (.halt c2, ev) →
      c2.sObj = c.sObj ∧ c2.suffixObj = c.suffixObj) ∧
    (∀ ws c1 ev1, isClosed mem c = .ok (.notClosed ws, c1, ev1) →
      homSet c.store c.sObj c.powObj = [honestS2p mem c] →
      homSet c.store c.fsObj c.powObj = [honestFs2p mem c] →
      homSet c.store c.fsObj (hObj (honestS2p mem c)) = [] →
      (∀ x ∈ c.sObj.elems, ∀ y ∈ c.fsObj.elems,
        rowLabel mem c.suffixObj.elems y ≠ x) →
      ∀ c2 ev, runIter mem c = .ok (.again c2, ev) →
        c.sObj.elems.length + 1 ≤ c2.sObj.elems.length) := by
  refine ⟨?_, ?_, ?_⟩
  · intro c2 ev h
    rcases runIter_cases h with
      ⟨ws2, c1b, ev1b, c3, ev2, hcl, hfs, hst, -⟩ |
      ⟨c1b, ev1b, c2b, ev2, -, -, hst, -⟩ |
      ⟨c1b, ev1b, ws1, c2b, ev2, ws3, c3, ev3, hcl, hc1, hc2, hst, -⟩ |
      ⟨c1b, ev1b, ws1, c2b, ev2, c3, ev3, c4, ev4, -, -, -, -, hst, -⟩ |
      ⟨c1b, ev1b, ws1, c2b, ev2, c3, ev3, ws4, c4, ev4, hcl, hc1, hc2, hcl2, hst, -⟩
    · obtain rfl : c2 = c3 := by cases hst; rfl
      have hfr1 := storeExt_fields (isClosed_storeExt hcl)
      have hfr2 := createFsObjects_frame hfs
      constructor
      · calc c.sObj.elems.length = c1b.sObj.elems.length := by rw [hfr1.1]
          _ ≤ (updateTable c1b c1b.sObj ws2).1.elems.length := updateTable_len_le _ _ _
          _ = c2.sObj.elems.length := by rw [hfr2.1]
      · have hsuf : c2.suffixObj = c.suffixObj := hfr2.2.1.trans hfr1.2.2.2.1
        rw [hsuf]
    · cases hst
    · obtain rfl : c2 = createSuffixPowerSet
          { (updateTable c3 c3.suffixObj ws3).2 with
            suffixObj := (updateTable c3 c3.suffixObj ws3).1 } := by cases hst; rfl
      have hf1 := storeExt_fields (isClosed_storeExt hcl)
      have hf2 := storeExt_fields (isConsistent_storeExt hc1)
      have hf3 := storeExt_fields (isConsistent_storeExt hc2)
      constructor
      · exact le_of_eq (congrArg (fun o => o.elems.length)
          (((hf3.1.trans hf2.1).trans hf1.1).symm))
      · have hsuf : c3.suffixObj = c.suffixObj :=
          (hf3.2.2.2.1.trans hf2.2.2.2.1).trans hf1.2.2.2.1
        calc c.suffixObj.elems.length = c3.suffixObj.elems.length := by rw [hsuf]
          _ ≤ (updateTable c3 c3.suffixObj ws3).1.elems.length := updateTable_len_le _ _ _
    · cases hst
    · obtain rfl : c2 = c4 := by cases hst; rfl
      have hf1 := storeExt_fields (isClosed_storeExt hcl)
      have hf2 := storeExt_fields (isConsistent_storeExt hc1)
      have hf3 := storeExt_fields (isConsistent_storeExt hc2)
      have hf4 := storeExt_fields (isClosed_storeExt hcl2)
      constructor
      · exact le_of_eq (congrArg (fun o => o.elems.length)
          ((((hf4.1.trans hf3.1).trans hf2.1).trans hf1.1).symm))
      · exact le_of_eq (congrArg (fun o => o.elems.length)
          (((((hf4.2.2.2.1.trans hf3.2.2.2.1).trans hf2.2.2.2.1).trans
            hf1.2.2.2.1)).symm))
  · intro c2 ev h
    rcases runIter_cases h with
      ⟨ws2, c1b, ev1b, c3, ev2, -, -, hst, -⟩ |
      ⟨c1b, ev1b, c2b, ev2, hcl, hcons, hst, -⟩ |
      ⟨c1b, ev1b, ws1, c2b, ev2, ws3, c3, ev3, -, -, -, hst, -⟩ |
      ⟨c1b, ev1b, ws1, c2b, ev2, c3, ev3, c4, ev4, hcl, hc1, hc2, hcl2, hst, -⟩ |
      ⟨c1b, ev1b, ws1, c2b, ev2, c3, ev3, ws4, c4, ev4, -, -, -, -, hst, -⟩
    · cases hst
    · obtain rfl : c2 = c2b := by cases hst; rfl
      have hf1 := storeExt_fields (isClosed_storeExt hcl)
      have hf2 := storeExt_fields (isConsistent_storeExt hcons)
      exact ⟨hf2.1.trans hf1.1, hf2.2.2.2.1.trans hf1.2.2.2.1⟩
    · cases hst
    · obtain rfl : c2 = c4 := by cases hst; rfl
      have hf1 := storeExt_fields (isClosed_storeExt hcl)
      have hf2 := storeExt_fields (isConsistent_storeExt hc1)
      have hf3 := storeExt_fields (isConsistent_storeExt hc2)
      have hf4 := storeExt_fields (isClosed_storeExt hcl2)
      exact ⟨((hf4.1.trans hf3.1).trans hf2.1).trans hf1.1,
        ((hf4.2.2.2.1.trans hf3.2.2.2.1).trans hf2.2.2.2.1).trans hf1.2.2.2.1⟩
    · cases hst
  · intro ws c1 ev1 hcl h1 h2 hH hgood c2 ev hri
    have hrev : (monicOf (honestS2p mem c)).map.map (fun p => (p.2, p.1)) =
        (hObj (honestS2p mem c)).elems.map (fun r => (r, r)) := by
      simp only [monicOf, List.map_map]
      rfl
    cases hb : buildFsToH ((monicOf (honestS2p mem c)).map.map (fun p => (p.2, p.1)))
        (honestFs2p mem c).map with
    | ok mp =>
      rw [hrev] at hb
      have hmp : mp = (honestFs2p mem c).map := buildFsToH_diag hb
      have hnil : composeMaps mp (honestS2p mem c).map = [] := by
        apply composeMaps_nil
        intro p hp
        rw [hmp] at hp
        obtain ⟨y, hy, hyeq⟩ := List.mem_map.mp hp
        have hp2 : p.2 = rowLabel mem c.suffixObj.elems y := (congrArg Prod.snd hyeq).symm
        rw [hp2]
        show alookup (rowMap mem c.suffixObj.elems c.sObj.elems) _ = none
        rw [rowMap, alookup_graph]
        apply if_neg
        intro hinS
        exact hgood _ hinS y hy rfl
      have hcomm : morphismCommute
          [⟨c.fsObj, hObj (honestS2p mem c), mp⟩, honestS2p mem c]
          [epicOf (honestS2p mem c), monicOf (honestS2p mem c)] = .commutative := by
        unfold morphismCommute
        have hchain : chainMap [(⟨c.fsObj, hObj (honestS2p mem c), mp⟩ : Mor),
            honestS2p mem c] = [] := hnil
        rw [hchain]
        rfl
      have := isClosed_construction_ok mem h1 h2 hH (by rw [hrev]; exact hb)
      rw [hcomm] at this
      rw [this] at hcl
      simp at hcl
    | error ws2 =>
      have hclc := isClosed_construction_error mem h1 h2 hH hb
      rw [hclc] at hcl
      simp only [Except.ok.injEq, Prod.mk.injEq, ClosedRes.notClosed.injEq] at hcl
      obtain ⟨hws, hc1, hev1⟩ := hcl
      obtain ⟨w, r, hsh, hmem, hnone⟩ := buildFsToH_error_shape hb
      obtain ⟨y, hy, hyeq⟩ := List.mem_map.mp hmem
      have hy1 : y = w := congrArg Prod.fst hyeq
      have hy2 : rowLabel mem c.suffixObj.elems y = r := congrArg Prod.snd hyeq
      subst hy1
      have hnotS : y ∉ c.sObj.elems := by
        intro hinS
        rw [monicRev_alookup] at hnone
        have hrin : r ∈ (hObj (honestS2p mem c)).elems := by
          rw [hObj_honestS2p_elems, List.mem_dedup, ← hy2]
          exact List.mem_map_of_mem _ hinS
        rw [if_pos hrin] at hnone
        cases hnone
      rcases runIter_cases hri with
        ⟨ws3, c1b, ev1b, c3, ev2, hcl2, hfs, hst, -⟩ |
        ⟨c1b, ev1b, c2b, ev2, hcl2, -, -, -⟩ |
        ⟨c1b, ev1b, ws1, c2b, ev2, ws3, c3, ev3, hcl2, -, -, -, -⟩ |
        ⟨c1b, ev1b, ws1, c2b, ev2, c3, ev3, c4, ev4, hcl2, -, -, -, -, -⟩ |
        ⟨c1b, ev1b, ws1, c2b, ev2, c3, ev3, ws4, c4, ev4, hcl2, -, -, -, -, -⟩
      · rw [hclc] at hcl2
        simp only [Except.ok.injEq, Prod.mk.injEq, ClosedRes.notClosed.injEq] at hcl2
        obtain ⟨hws3, hc1b, -⟩ := hcl2
        obtain rfl : c2 = c3 := by cases hst; rfl
        have hfr2 := createFsObjects_frame hfs
        have hstrict : c1b.sObj.elems.length + 1 ≤
            (updateTable c1b c1b.sObj ws3).1.elems.length := by
          apply updateTable_len_strict y
          · rw [← hws3, hsh]
            exact List.mem_cons_self _ _
          · rw [← hc1b]
            exact hnotS
        calc c.sObj.elems.length + 1 = c1b.sObj.elems.length + 1 := by rw [← hc1b]
          _ ≤ (updateTable c1b c1b.sObj ws3).1.elems.length := hstrict
          _ = c2.sObj.elems.length := by rw [hfr2.1]
      · rw [hclc] at hcl2
        simp at hcl2
      · rw [hclc] at hcl2
        simp at hcl2
      · rw [hclc] at hcl2
        simp at hcl2
      · rw [hclc] at hcl2
        simp at hcl2

/-- Claim C9, witness: a NotClosed iteration from an honest state strictly
grows S. -/
theorem growth_monotonicity_witness :
    ∃ c2 ev, runIter mem3 c3st = .ok (.again c2, ev) ∧
      c3st.sObj.elems.length + 1 ≤ c2.sObj.elems.length := by
  have h := (growth_monotonicity mem3 c3st).2.2 ["a"] c3st [.checkClosed]
    rfl rfl rfl rfl (by decide)
  exact ⟨_, _, rfl, h _ _ rfl⟩

/-- Claim C10: `RegexOracle::equivalence_query` is an unimplemented stub whose
body panics for every hypothesis, and the refinement loop never issues an
equivalence query: every event of a (fueled) run is a membership query or a
predicate-check marker, so a complete learning run never reaches the
panic. -/
theorem equivalence_query_unreachable (mem : String → Bool) :
    (∀ (α : Type) (h : α), regexEquivalenceQuery α h = .error .unimplemented) ∧
    (∀ n c r ev, runFuel mem n c = .ok (r, ev) → Event.eqQuery ∉ ev) := by
  refine ⟨fun α h => rfl, ?_⟩
  intro n c r ev h hmem
  rcases runFuel_events n c r ev h Event.eqQuery hmem with h1 | h1 | ⟨w, h1⟩ <;> cases h1

/-- Claim C10, witness: a concrete fueled run whose trace holds no
equivalence query. -/
theorem equivalence_query_unreachable_witness :
    ∃ r ev, runFuel mem1 1 c1st = .ok (r, ev) ∧ Event.eqQuery ∉ ev := by
  refine ⟨_, _, rfl, (equivalence_query_unreachable mem1).2 1 c1st _ _ rfl⟩

end CalfModel
